import Mathlib

/-!
Verification of the core of the rLportfolio tabular reinforcement-learning
trading engine against its natural-language specification.

The Go source is embedded shallowly:

* machine floats (`float64`) are modelled by exact rationals `ℚ` wherever the
  code only does field arithmetic and comparisons, and by `ℝ` where the code
  calls transcendental functions (`math.Log`, `math.Sqrt`); floating-point
  rounding is outside the model;
* Go slices become `List`s, reads `xs[i]` become `List.getD` (all verified
  accesses are in range), in-place writes become `List.set`;
* Go `int` values that are only ever non-negative in the verified code paths
  are modelled by `ℕ`.
-/

namespace RLP

/-! ### Moving-average permutation code (pkg/moving-average/ma.go)

`EncodeMAState` / `DecodeMAState` translate the Lehmer (factorial number
system) permutation code of `ma.go` lines 118-169.  The Go `used` array of
8 booleans becomes a `List Bool` of length 8, and the index loop becomes
structural recursion over the list of entries paired with the list of
factorial place values. -/

/-- Factorial place values used by the Lehmer code: 6!, 5!, 4!, 3!, 2!, 1!, 0!. -/
def maFactorials : List ℕ := [720, 120, 24, 6, 2, 1, 1]

/-- The seven rank tags 1..7 (six moving averages and the price). -/
def maTags : List ℕ := [1, 2, 3, 4, 5, 6, 7]

/-- Encoding loop of `EncodeMAState`: for each entry `v`, count the unused
ranks `j` with `1 ≤ j < v` (the Go inner loop), weight the count by the
factorial place value, mark `v` used, and continue. -/
def encodeLoop : List ℕ → List Bool → List ℕ → ℕ
  | [], _, _ => 0
  | _ :: _, _, [] => 0
  | v :: rest, used, f :: fs =>
    ((List.range' 1 (v - 1)).countP (fun j => !(used.getD j true))) * f +
      encodeLoop rest (used.set v true) fs

/-- `EncodeMAState` encodes an ordering (a permutation of 1..7) into a state
index in `[0, 5039]`; inputs that are not 7 elements long encode to 0. -/
def EncodeMAState (p : List ℕ) : ℕ :=
  if p.length = 7 then encodeLoop p (List.replicate 8 false) maFactorials else 0

/-- Selection loop of `DecodeMAState`: walk `j = 1..7` and return the
`pos`-th (0-based) rank not yet used; 0 when the scan is exhausted, matching
the Go loop that leaves the entry at its zero value. -/
def pickLoop : List ℕ → List Bool → ℕ → ℕ
  | [], _, _ => 0
  | j :: js, used, pos =>
    if !(used.getD j true) then
      if pos = 0 then j else pickLoop js used (pos - 1)
    else pickLoop js used pos

/-- Decoding loop of `DecodeMAState`: divide by the factorial place value,
pick the corresponding still-unused rank, and continue with the remainder. -/
def decodeLoop : List ℕ → List Bool → ℕ → List ℕ
  | [], _, _ => []
  | f :: fs, used, s =>
    pickLoop maTags used (s / f) ::
      decodeLoop fs (used.set (pickLoop maTags used (s / f)) true) (s % f)

/-- `DecodeMAState` decodes a state index back into an ordering.  The Go
function takes an `int`; the embedding covers the non-negative indices, which
is the contract domain `[0, 5039]`. -/
def DecodeMAState (stateIndex : ℕ) : List ℕ :=
  decodeLoop maFactorials (List.replicate 8 false) stateIndex

/-! Structural correctness of the Lehmer code. -/

lemma getD_true_of_le {used : List Bool} {j : ℕ} (h : used.length ≤ j) :
    used.getD j true = true := by
  rw [List.getD_eq_getElem?_getD, List.getElem?_eq_none h]
  rfl

lemma getD_set_ne {used : List Bool} {v j : ℕ} (h : j ≠ v) (b : Bool) :
    (used.set v b).getD j true = used.getD j true := by
  rw [List.getD_eq_getElem?_getD, List.getD_eq_getElem?_getD,
    List.getElem?_set_ne (Ne.symm h)]

lemma getD_set_self {used : List Bool} {v : ℕ} (h : v < used.length) (b : Bool) :
    (used.set v b).getD v true = b := by
  rw [List.getD_eq_getElem?_getD, List.getElem?_set_self']
  rw [List.getElem?_eq_getElem h]
  rfl

/-- A rank `j` is still available in the `used` array. -/
def avail (used : List Bool) (j : ℕ) : Prop := used.getD j true = false

instance (used : List Bool) (j : ℕ) : Decidable (avail used j) := by
  unfold avail; infer_instance

lemma avail_lt_length {used : List Bool} {j : ℕ} (h : avail used j) : j < used.length := by
  by_contra hlt
  rw [avail, getD_true_of_le (by omega)] at h
  exact Bool.true_eq_false.mp h

lemma avail_set_ne {used : List Bool} {v j : ℕ} (hne : j ≠ v) :
    avail (used.set v true) j ↔ avail used j := by
  rw [avail, avail, getD_set_ne hne]

lemma not_avail_set_self {used : List Bool} {v : ℕ} (hv : v < used.length) :
    ¬ avail (used.set v true) v := by
  rw [avail, getD_set_self hv]
  exact fun h => Bool.true_eq_false.mp h

/-- `pickLoop` over an ascending run returns the `c`-th available rank,
where `c` counts the available ranks below `v`. -/
lemma pickLoop_range' (k : ℕ) : ∀ (a : ℕ) (used : List Bool) (v : ℕ),
    a ≤ v → v < a + k → avail used v →
    pickLoop (List.range' a k) used ((List.range' a (v - a)).countP (fun j => !(used.getD j true)))
      = v := by
  induction k with
  | zero => intro a used v h1 h2; omega
  | succ k ih =>
    intro a used v h1 h2 hav
    rw [List.range'_succ]
    rcases eq_or_lt_of_le h1 with rfl | hlt
    · rw [Nat.sub_self]
      rw [avail] at hav
      simp only [List.range', List.countP_nil, pickLoop, hav, Bool.not_false, if_true, if_pos rfl]
    · have hsplit : List.range' a (v - a) = a :: List.range' (a + 1) (v - (a + 1)) := by
        have hva : v - a = (v - (a + 1)) + 1 := by omega
        rw [hva, List.range'_succ]
      rw [hsplit, List.countP_cons]
      by_cases hava : avail used a
      · rw [avail] at hava
        rw [pickLoop]
        simp only [hava, Bool.not_false, if_true, if_pos rfl]
        have hne : (List.range' (a + 1) (v - (a + 1))).countP (fun j => !(used.getD j true)) + 1 ≠ 0 := by
          omega
        rw [if_neg hne, Nat.add_sub_cancel]
        exact ih (a + 1) used v (by omega) (by omega) hav
      · have hb : used.getD a true = true := by
          rw [avail] at hava
          revert hava
          cases used.getD a true <;> simp
      -- when `a` is not available it contributes nothing to the count and is skipped
        rw [pickLoop]
        simp only [hb, Bool.not_true, Bool.false_eq_true, if_false, Nat.add_zero]
        exact ih (a + 1) used v (by omega) (by omega) hav

/-- The list of factorial place values for `k` remaining positions:
`[(k-1)!, ..., 1!, 0!]`. -/
def factList : ℕ → List ℕ
  | 0 => []
  | k + 1 => Nat.factorial k :: factList k

lemma maFactorials_eq : maFactorials = factList 7 := by decide

lemma maTags_eq : maTags = List.range' 1 7 := by decide

/-- Main induction: over any 8-slot `used` array whose available ranks in
1..7 are exactly the distinct entries of `vs`, the decode loop inverts the
encode loop and the encoded value is below `(vs.length)!`. -/
lemma decodeLoop_encodeLoop : ∀ (vs : List ℕ) (used : List Bool),
    used.length = 8 →
    vs.Nodup →
    (∀ v ∈ vs, avail used v) →
    (∀ j, 1 ≤ j → avail used j → j ∈ vs) →
    (∀ v ∈ vs, 1 ≤ v) →
    decodeLoop (factList vs.length) used (encodeLoop vs used (factList vs.length)) = vs
      ∧ encodeLoop vs used (factList vs.length) < Nat.factorial vs.length := by
  intro vs
  induction vs with
  | nil =>
    intro used _ _ _ _ _
    simp [factList, encodeLoop, decodeLoop, Nat.factorial]
  | cons v rest ih =>
    intro used hlen hnd hav hcover hpos
    have hvav : avail used v := hav v (List.mem_cons_self v rest)
    have hv1 : 1 ≤ v := hpos v (List.mem_cons_self v rest)
    have hvlt : v < used.length := avail_lt_length hvav
    have hndr : rest.Nodup := (List.nodup_cons.mp hnd).2
    have hvnr : v ∉ rest := (List.nodup_cons.mp hnd).1
    have hlen' : (used.set v true).length = 8 := by rw [List.length_set, hlen]
    have hav' : ∀ w ∈ rest, avail (used.set v true) w := by
      intro w hw
      have hwv : w ≠ v := fun h => hvnr (h ▸ hw)
      exact (avail_set_ne hwv).mpr (hav w (List.mem_cons_of_mem v hw))
    have hcover' : ∀ j, 1 ≤ j → avail (used.set v true) j → j ∈ rest := by
      intro j hj1 hj
      have hjv : j ≠ v := by
        intro h
        exact not_avail_set_self hvlt (h ▸ hj)
      have : j ∈ v :: rest := hcover j hj1 ((avail_set_ne hjv).mp hj)
      rcases List.mem_cons.mp this with h | h
      · exact absurd h hjv
      · exact h
    have hpos' : ∀ w ∈ rest, 1 ≤ w := fun w hw => hpos w (List.mem_cons_of_mem v hw)
    obtain ⟨ihdec, ihlt⟩ := ih (used.set v true) hlen' hndr hav' hcover' hpos'
    have hstep : encodeLoop (v :: rest) used (factList (rest.length + 1)) =
        ((List.range' 1 (v - 1)).countP (fun j => !(used.getD j true))) * Nat.factorial rest.length
          + encodeLoop rest (used.set v true) (factList rest.length) := rfl
    -- bound on the Lehmer digit: the counted ranks are distinct members of `rest`
    have hcle : (List.range' 1 (v - 1)).countP (fun j => !(used.getD j true)) ≤ rest.length := by
      have hfsub : (List.range' 1 (v - 1)).filter (fun j => !(used.getD j true)) ⊆ rest := by
        intro j hj
        have hjmem := List.mem_filter.mp hj
        have hjrange := List.mem_range'_1.mp hjmem.1
        have hjav : avail used j := by
          have hgt := hjmem.2
          rw [avail]
          revert hgt
          cases used.getD j true <;> simp
        have hj1 : 1 ≤ j := hjrange.1
        have hjltv : j < v := by omega
        have : j ∈ v :: rest := hcover j hj1 hjav
        rcases List.mem_cons.mp this with h | h
        · omega
        · exact h
      have hfnd : ((List.range' 1 (v - 1)).filter (fun j => !(used.getD j true))).Nodup :=
        List.Nodup.filter _ (List.nodup_range' 1 (v - 1) 1 (by norm_num))
      calc (List.range' 1 (v - 1)).countP (fun j => !(used.getD j true))
          = ((List.range' 1 (v - 1)).filter (fun j => !(used.getD j true))).length := by
            rw [List.countP_eq_length_filter]
        _ ≤ rest.length := (List.subperm_of_subset hfnd hfsub).length_le
    have hkfpos : 0 < Nat.factorial rest.length := Nat.factorial_pos rest.length
    have hdiv : (((List.range' 1 (v - 1)).countP (fun j => !(used.getD j true)))
          * Nat.factorial rest.length + encodeLoop rest (used.set v true) (factList rest.length))
          / Nat.factorial rest.length
        = (List.range' 1 (v - 1)).countP (fun j => !(used.getD j true)) := by
      rw [mul_comm, Nat.mul_add_div hkfpos, Nat.div_eq_of_lt ihlt, Nat.add_zero]
    have hmod : (((List.range' 1 (v - 1)).countP (fun j => !(used.getD j true)))
          * Nat.factorial rest.length + encodeLoop rest (used.set v true) (factList rest.length))
          % Nat.factorial rest.length
        = encodeLoop rest (used.set v true) (factList rest.length) := by
      rw [mul_comm, Nat.mul_add_mod, Nat.mod_eq_of_lt ihlt]
    have hpick : pickLoop maTags used
        ((List.range' 1 (v - 1)).countP (fun j => !(used.getD j true))) = v := by
      have hv8 : v < 1 + 7 := by omega
      have := pickLoop_range' 7 1 used v hv1 hv8 hvav
      rw [maTags_eq]
      have hvsub : v - 1 + 0 = v - 1 := by omega
      simpa using this
    have hlenvs : (v :: rest).length = rest.length + 1 := rfl
    constructor
    · rw [hlenvs, hstep]
      show pickLoop maTags used _ :: decodeLoop _ _ _ = _
      rw [hdiv, hmod, hpick]
      rw [ihdec]
    · rw [hlenvs, hstep, Nat.factorial_succ]
      nlinarith

lemma avail_replicate {j : ℕ} (hj : j < 8) : avail (List.replicate 8 false) j := by
  rw [avail, List.getD_eq_getElem?_getD, List.getElem?_replicate, if_pos hj]
  rfl

lemma mem_maTags {j : ℕ} : j ∈ maTags ↔ 1 ≤ j ∧ j < 8 := by
  rw [maTags_eq, List.mem_range'_1]

/-- Round trip and range for every permutation of the seven tags. -/
lemma decode_encode_of_perm {p : List ℕ} (hp : p.Perm maTags) :
    DecodeMAState (EncodeMAState p) = p ∧ EncodeMAState p < 5040 := by
  have hlen : p.length = 7 := by rw [hp.length_eq]; rfl
  have hnd : p.Nodup := hp.nodup_iff.mpr (by decide)
  have hav : ∀ v ∈ p, avail (List.replicate 8 false) v := by
    intro v hv
    have := (mem_maTags.mp (hp.mem_iff.mp hv)).2
    exact avail_replicate this
  have hcover : ∀ j, 1 ≤ j → avail (List.replicate 8 false) j → j ∈ p := by
    intro j hj1 hjav
    have hj8 : j < 8 := by
      have := avail_lt_length hjav
      simpa using this
    exact hp.mem_iff.mpr (mem_maTags.mpr ⟨hj1, hj8⟩)
  have hpos : ∀ v ∈ p, 1 ≤ v := by
    intro v hv
    exact (mem_maTags.mp (hp.mem_iff.mp hv)).1
  obtain ⟨hd, hb⟩ := decodeLoop_encodeLoop p (List.replicate 8 false) (by simp) hnd hav hcover hpos
  have hEnc : EncodeMAState p = encodeLoop p (List.replicate 8 false) (factList 7) := by
    rw [EncodeMAState, if_pos hlen, maFactorials_eq]
  constructor
  · rw [hEnc, DecodeMAState, maFactorials_eq]
    rw [hlen] at hd
    exact hd
  · rw [hEnc]
    rw [hlen] at hb
    exact lt_of_lt_of_le hb (by norm_num [Nat.factorial])

/-- Encoding a permutation and decoding it back, for every index in range:
derived by counting from injectivity of the encoder on permutations. -/
lemma decode_encode_of_lt {k : ℕ} (hk : k < 5040) :
    (DecodeMAState k).Perm maTags ∧ EncodeMAState (DecodeMAState k) = k := by
  classical
  have hnodup : maTags.permutations.Nodup := List.nodup_permutations maTags (by decide)
  have hlenperm : maTags.permutations.length = 5040 := by
    rw [List.length_permutations]
    norm_num [Nat.factorial]
  have hcardF : maTags.permutations.toFinset.card = 5040 := by
    rw [List.toFinset_card_of_nodup hnodup, hlenperm]
  have hinj : Set.InjOn EncodeMAState (maTags.permutations.toFinset : Set (List ℕ)) := by
    intro p hpm q hqm he
    have hp := List.mem_permutations.mp (List.mem_toFinset.mp hpm)
    have hq := List.mem_permutations.mp (List.mem_toFinset.mp hqm)
    have h1 := (decode_encode_of_perm hp).1
    have h2 := (decode_encode_of_perm hq).1
    rw [← h1, ← h2, he]
  have hsub : maTags.permutations.toFinset.image EncodeMAState ⊆ Finset.range 5040 := by
    intro x hx
    obtain ⟨p, hpm, rfl⟩ := Finset.mem_image.mp hx
    have hp := List.mem_permutations.mp (List.mem_toFinset.mp hpm)
    exact Finset.mem_range.mpr (decode_encode_of_perm hp).2
  have hcardim : (maTags.permutations.toFinset.image EncodeMAState).card = 5040 := by
    rw [Finset.card_image_of_injOn hinj, hcardF]
  have heq : maTags.permutations.toFinset.image EncodeMAState = Finset.range 5040 :=
    Finset.eq_of_subset_of_card_le hsub (by rw [hcardim, Finset.card_range])
  have hkmem : k ∈ maTags.permutations.toFinset.image EncodeMAState := by
    rw [heq]
    exact Finset.mem_range.mpr hk
  obtain ⟨p, hpm, hpe⟩ := Finset.mem_image.mp hkmem
  have hp := List.mem_permutations.mp (List.mem_toFinset.mp hpm)
  have hrt := (decode_encode_of_perm hp).1
  constructor
  · rw [← hpe, hrt]
    exact hp
  · rw [← hpe, hrt]

/-- C2: for every permutation `p` of `{1..7}`, `DecodeMAState (EncodeMAState p) = p`,
and `EncodeMAState` is a bijection from the 7-element permutations onto `[0, 5039]`:
it maps permutations into the range (with the round trip giving injectivity), and
every index below 5040 is hit, with `DecodeMAState` as the two-sided inverse. -/
theorem ma_encode_decode_bijection :
    (∀ p : List ℕ, p.Perm maTags →
      DecodeMAState (EncodeMAState p) = p ∧ EncodeMAState p < 5040) ∧
    (∀ k : ℕ, k < 5040 →
      (DecodeMAState k).Perm maTags ∧ EncodeMAState (DecodeMAState k) = k) :=
  ⟨fun _ hp => decode_encode_of_perm hp, fun _ hk => decode_encode_of_lt hk⟩

/-- Witness for `ma_encode_decode_bijection` at the permutation `[2,1,3,4,5,6,7]`
and the index 5039. -/
theorem ma_encode_decode_bijection_witness :
    DecodeMAState (EncodeMAState [2, 1, 3, 4, 5, 6, 7]) = [2, 1, 3, 4, 5, 6, 7] ∧
      EncodeMAState (DecodeMAState 5039) = 5039 :=
  ⟨(ma_encode_decode_bijection.1 [2, 1, 3, 4, 5, 6, 7] (by decide)).1,
   (ma_encode_decode_bijection.2 5039 (by decide)).2⟩

/-! ### Moving-average ordering (pkg/moving-average/ma.go lines 8-113)

`GetMAOrdering` computes the six simple moving averages ending at `idx`
plus the current price, tags them 1..7, and sorts descending by value with
ties (absolute difference below 1e-10) broken by ascending tag.  Go sorts
with `sort.Slice`; for a comparator that is a strict weak order the result
is the unique stable-sorted order, which the embedding realises with a
deterministic insertion sort (the algorithm Go itself uses for short
slices). -/

/-- The moving-average periods of the configuration paired with
`pkg/env/market.go`. -/
def maPeriods : List ℕ := [10, 20, 30, 40, 50, 60]

/-- A value tagged with its identifier (1-6 for the MAs, 7 for the price). -/
structure ValueWithIndex where
  value : ℚ
  index : ℕ
  deriving DecidableEq

/-- Simple moving average of `period` prices ending at `idx` (the Go inner
summation loop `j = idx-period+1 .. idx`). -/
def maValueAt (prices : List ℚ) (idx period : ℕ) : ℚ :=
  (((List.range' (idx + 1 - period) period).map (fun j => prices.getD j 0)).sum) / period

/-- The seven tagged values built by `GetMAOrdering` before sorting: the six
moving averages (tag `period / 10`) followed by the current price (tag 7). -/
def maValuesAt (prices : List ℚ) (idx : ℕ) : List ValueWithIndex :=
  maPeriods.map (fun period => ⟨maValueAt prices idx period, period / 10⟩) ++
    [⟨prices.getD idx 0, 7⟩]

/-- The tie threshold 1e-10 of the Go comparator. -/
def epsTie : ℚ := 1 / 10 ^ 10

/-- The `sort.Slice` comparator of `GetMAOrdering`: ties (absolute difference
below `epsTie`) compare by ascending tag, otherwise by descending value. -/
def maLess (a b : ValueWithIndex) : Bool :=
  if |a.value - b.value| < epsTie then decide (a.index < b.index)
  else decide (b.value < a.value)

/-- Insert into a sorted list, placing the new element before the first
element the comparator does not rank strictly below it.  Folded from the
right this keeps elements the comparator ties in their original order —
the stable behaviour of Go insertion sort. -/
def insertLess (less : α → α → Bool) (a : α) : List α → List α
  | [] => [a]
  | b :: l => if less b a then b :: insertLess less a l else a :: b :: l

/-- Deterministic stable sort modelling `sort.Slice` / `slices.SortFunc`. -/
def sortByLess (less : α → α → Bool) : List α → List α
  | [] => []
  | a :: l => insertLess less a (sortByLess less l)

/-- `GetMAOrdering` returns the tag order of the seven values sorted by
`maLess`, or the empty list (Go: `nil`) when `idx` is out of range. -/
def GetMAOrdering (prices : List ℚ) (idx : ℕ) : List ℕ :=
  if idx < prices.length then
    (sortByLess maLess (maValuesAt prices idx)).map (fun v => v.index)
  else []

/-- `GetMAStateForIndex` encodes the ordering at `idx`, defaulting to 0 when
the ordering is not a 7-element list. -/
def GetMAStateForIndex (prices : List ℚ) (idx : ℕ) : ℕ :=
  if (GetMAOrdering prices idx).length = 7 then EncodeMAState (GetMAOrdering prices idx)
  else 0

/-- Total number of MA ordering states (`NumMAStates` in ma.go). -/
def NumMAStates : ℕ := 5040

/-! ### Discrete state encoding (pkg/state/state.go, the ranking-based
configuration paired with market.go: MA ordering x cash category x shares
category) -/

/-- Number of portfolio position categories (None, Medium, High). -/
def NumPositionCategories : ℕ := 3

/-- Number of MA ordering states (7 factorial). -/
def NumMarketStates : ℕ := 5040

/-- Total state space size: MA states x cash categories x shares categories. -/
def NumStates : ℕ := NumMarketStates * NumPositionCategories * NumPositionCategories

/-- The environment state: the encoded index plus the raw components. -/
structure State where
  index : ℕ
  maState : ℕ
  cashCat : ℕ
  sharesCat : ℕ
  deriving DecidableEq

/-- `Encode` packs (maState, cashCat, sharesCat) into a single index. -/
def Encode (maState cashCat sharesCat : ℕ) : ℕ :=
  maState * NumPositionCategories * NumPositionCategories +
    cashCat * NumPositionCategories + sharesCat

/-- `NewState` builds a `State` from its component categories. -/
def NewState (maState cashCat sharesCat : ℕ) : State :=
  ⟨Encode maState cashCat sharesCat, maState, cashCat, sharesCat⟩

/-- `GetCashCategory` buckets the cash share of the portfolio value. -/
def GetCashCategory (cash portfolioValue : ℚ) : ℕ :=
  if portfolioValue ≤ 0 then 0
  else if cash / portfolioValue < 2 / 10 then 0
  else if cash / portfolioValue < 8 / 10 then 1
  else 2

/-- `GetSharesCategory` buckets the shares share of the portfolio value. -/
def GetSharesCategory (sharesValue portfolioValue : ℚ) : ℕ :=
  if portfolioValue ≤ 0 then 0
  else if sharesValue / portfolioValue < 2 / 10 then 0
  else if sharesValue / portfolioValue < 8 / 10 then 1
  else 2

/-! ### Actions and fractions (pkg/agent/action.go, the 5-action variant
used by market.go) -/

/-- The trading actions. -/
inductive Action where
  | nothing
  | buySmall
  | buyLarge
  | sellSmall
  | sellLarge
  deriving DecidableEq

/-- The integer value of an action (Go `Action` is an `int` enum). -/
def Action.toIdx : Action → ℕ
  | .nothing => 0
  | .buySmall => 1
  | .buyLarge => 2
  | .sellSmall => 3
  | .sellLarge => 4

/-- Number of actions. -/
def NumActions : ℕ := 5

/-- Fraction of cash spent by a small buy. -/
def BuySmall : ℚ := 1 / 10

/-- Fraction of cash spent by a large buy. -/
def BuyLarge : ℚ := 1 / 2

/-- Fraction of shares sold by a small sell. -/
def SellSmall : ℚ := 1 / 10

/-- Fraction of shares sold by a large sell. -/
def SellLarge : ℚ := 1 / 2

/-- Modelled from the spec: `Action.IsBuy` is called by
`MarketEnv.calculateTradePenalty` but its definition is not among the
provided sources; the spec says a Buy increments the consecutive-buy
counter, so the buy actions are exactly the two buy variants. -/
def Action.isBuy : Action → Bool
  | .buySmall => true
  | .buyLarge => true
  | _ => false

/-- Modelled from the spec: `Action.IsSell`, the sell counterpart of
`Action.isBuy`. -/
def Action.isSell : Action → Bool
  | .sellSmall => true
  | .sellLarge => true
  | _ => false

/-! ### Tabular Q-function and Q-learning update (pkg/agent/value.go,
pkg/agent/learner.go) -/

/-- `MaxValue` of value.go: maximum of a slice, 0 for an empty slice. -/
def MaxValue : List ℚ → ℚ
  | [] => 0
  | x :: xs => xs.foldl (fun m v => if m < v then v else m) x

/-- The dense Q-table `Q[state][action]`. -/
structure QTable where
  Q : List (List ℚ)

/-- `QTable.Get`: read the value of a state-action pair. -/
def QTable.get (q : QTable) (s : State) (a : Action) : ℚ :=
  (q.Q.getD s.index []).getD a.toIdx 0

/-- `QTable.Set`: write the value of a state-action pair. -/
def QTable.setVal (q : QTable) (s : State) (a : Action) (v : ℚ) : QTable :=
  ⟨q.Q.set s.index ((q.Q.getD s.index []).set a.toIdx v)⟩

/-- `QTable.Max`: maximum value over actions for a state (0 for an empty row). -/
def QTable.maxQ (q : QTable) (s : State) : ℚ :=
  MaxValue (q.Q.getD s.index [])

/-- A state-action-reward-nextState transition (pkg/agent/transition.go). -/
structure Transition where
  state : State
  action : Action
  reward : ℚ
  nextState : State
  done : Bool

/-- The Q-learning agent: Q-table, learning rate and discount factor (the
policy field of the Go struct is not consulted by `Learn` and is omitted). -/
structure QLearningAgent where
  Q : QTable
  alpha : ℚ
  gamma : ℚ

/-- `QLearningAgent.Learn`: the temporal-difference update
`Q[s][a] += alpha * (reward + gamma * (0 if done else Max(nextState)) - Q[s][a])`. -/
def QLearningAgent.learn (ag : QLearningAgent) (t : Transition) : QLearningAgent :=
  let qCurrent := ag.Q.get t.state t.action
  let qNext := if t.done then 0 else ag.Q.maxQ t.nextState
  let tdTarget := t.reward + ag.gamma * qNext
  let tdError := tdTarget - qCurrent
  ⟨ag.Q.setVal t.state t.action (qCurrent + ag.alpha * tdError), ag.alpha, ag.gamma⟩

/-! ### Market environment (pkg/env/market.go, ranking-based configuration) -/

/-- The market environment state.  The Go struct fields `returns`, `approxM`
and `approxN` are carried by market.go but never read in the verified code
paths (`Reset`, `Step`, `getState`, `executeAction`, `calculateTradePenalty`)
and are omitted. -/
structure MarketEnv where
  prices : List ℚ
  currentIdx : ℕ
  cash : ℚ
  shares : ℚ
  initialValue : ℚ
  startIdx : ℕ
  commission : ℚ
  consecutiveBuys : ℕ
  consecutiveSells : ℕ
  maxConsecutiveTrades : ℕ
  tradePenalty : ℚ

/-- Configuration for the market environment. -/
structure MarketConfig where
  prices : List ℚ
  initialCash : ℚ
  minStartIdx : ℕ
  commission : ℚ
  maxConsecutiveTrades : ℕ
  tradePenalty : ℚ

/-- `NewMarketEnv`: apply the documented defaults to the configuration and
build the initial environment (start index 60, raised to `MinStartIdx` when
that is larger). -/
def NewMarketEnv (config : MarketConfig) : MarketEnv :=
  let initialCash := if config.initialCash ≤ 0 then 10000 else config.initialCash
  let minStartIdx := if config.minStartIdx < 1 then 20 else config.minStartIdx
  let commission := if config.commission ≤ 0 then 2 / 1000 else config.commission
  let maxConsecutiveTrades :=
    if config.maxConsecutiveTrades = 0 then 3 else config.maxConsecutiveTrades
  let tradePenalty := if config.tradePenalty ≤ 0 then 1 / 100 else config.tradePenalty
  let startIdx := if 60 < minStartIdx then minStartIdx else 60
  { prices := config.prices
    currentIdx := startIdx
    cash := initialCash
    shares := 0
    initialValue := initialCash
    startIdx := startIdx
    commission := commission
    consecutiveBuys := 0
    consecutiveSells := 0
    maxConsecutiveTrades := maxConsecutiveTrades
    tradePenalty := tradePenalty }

/-- `MarketEnv.Reset`: back to the start index with the initial cash, no
shares and cleared trade counters. -/
def MarketEnv.reset (e : MarketEnv) : MarketEnv :=
  { e with
    currentIdx := e.startIdx
    cash := e.initialValue
    shares := 0
    consecutiveBuys := 0
    consecutiveSells := 0 }

/-- Modelled from the spec: `CalculateReward` is called by `MarketEnv.Step`
but its definition is not among the provided sources; the spec states the
reward rule as `ln(portfolioValueAfter / portfolioValueBefore)` when
`portfolioValueBefore > 0` and `0` otherwise. -/
noncomputable def CalculateReward (before after : ℚ) : ℝ :=
  if 0 < before then Real.log ((after : ℝ) / (before : ℝ)) else 0

/-- `MarketEnv.executeAction`: mutate cash and shares according to the
fractional sizing table and the commission on the traded notional; sells
with no shares are silent no-ops. -/
def MarketEnv.executeAction (e : MarketEnv) (action : Action) (price : ℚ) : MarketEnv :=
  match action with
  | .nothing => e
  | .buySmall =>
    let cost := e.cash * BuySmall
    let commissionCost := cost * e.commission
    { e with cash := e.cash - cost, shares := e.shares + (cost - commissionCost) / price }
  | .buyLarge =>
    let cost := e.cash * BuyLarge
    let commissionCost := cost * e.commission
    { e with cash := e.cash - cost, shares := e.shares + (cost - commissionCost) / price }
  | .sellSmall =>
    if e.shares ≤ 0 then e
    else
      let sellShares := e.shares * SellSmall
      let proceeds := sellShares * price
      let commissionCost := proceeds * e.commission
      { e with cash := e.cash + (proceeds - commissionCost), shares := e.shares - sellShares }
  | .sellLarge =>
    if e.shares ≤ 0 then e
    else
      let sellShares := e.shares * SellLarge
      let proceeds := sellShares * price
      let commissionCost := proceeds * e.commission
      { e with cash := e.cash + (proceeds - commissionCost), shares := e.shares - sellShares }

/-- `MarketEnv.calculateTradePenalty`: update the consecutive-trade counters
and return the penalty charged on this step (the Go method mutates the
receiver and returns the penalty; the embedding returns both). -/
def MarketEnv.calcTradePenalty (e : MarketEnv) (action : Action) : ℚ × MarketEnv :=
  if action.isBuy then
    let e1 := { e with consecutiveBuys := e.consecutiveBuys + 1, consecutiveSells := 0 }
    (if e1.maxConsecutiveTrades < e1.consecutiveBuys then e1.tradePenalty else 0, e1)
  else if action.isSell then
    let e1 := { e with consecutiveSells := e.consecutiveSells + 1, consecutiveBuys := 0 }
    (if e1.maxConsecutiveTrades < e1.consecutiveSells then e1.tradePenalty else 0, e1)
  else
    (0, { e with consecutiveBuys := 0, consecutiveSells := 0 })

/-- `MarketEnv.getState`: the default state on insufficient data, otherwise
the MA-ordering state combined with the cash and shares position categories. -/
def MarketEnv.getState (e : MarketEnv) : State :=
  if e.currentIdx < e.startIdx ∨ e.prices.length ≤ e.currentIdx then NewState 0 0 0
  else if e.currentIdx < 60 then NewState 0 0 0
  else
    let maState := GetMAStateForIndex e.prices e.currentIdx
    let currentPrice := e.prices.getD e.currentIdx 0
    let portfolioValue := e.cash + e.shares * currentPrice
    let sharesValue := e.shares * currentPrice
    NewState maState (GetCashCategory e.cash portfolioValue)
      (GetSharesCategory sharesValue portfolioValue)

/-- `MarketEnv.Step`: terminal check, action execution, reward, penalty,
index advance and done flag.  The Go method mutates the receiver and returns
`(next state, reward, done)` with `next = getState()` of the mutated
receiver; the embedding returns the mutated environment in place of the
state, and `MarketEnv.stepState` recovers the returned `State`. -/
noncomputable def MarketEnv.step (e : MarketEnv) (action : Action) :
    MarketEnv × ℝ × Bool :=
  if e.prices.length - 1 ≤ e.currentIdx then (e, 0, true)
  else
    let currentPrice := e.prices.getD e.currentIdx 0
    let nextPrice := e.prices.getD (e.currentIdx + 1) 0
    let portfolioValueBefore := e.cash + e.shares * currentPrice
    let e1 := e.executeAction action currentPrice
    let portfolioValueAfter := e1.cash + e1.shares * nextPrice
    let penaltyEnv := e1.calcTradePenalty action
    let reward := CalculateReward portfolioValueBefore portfolioValueAfter -
      (penaltyEnv.1 : ℝ)
    let e2 := { penaltyEnv.2 with currentIdx := e.currentIdx + 1 }
    (e2, reward, decide (e.prices.length - 1 ≤ e.currentIdx + 1))

/-- The `State` value returned by the Go `Step` (the `getState` of the
mutated receiver). -/
noncomputable def MarketEnv.stepState (e : MarketEnv) (action : Action) : State :=
  (e.step action).1.getState

/-! ### Generic list access lemmas shared by the claim proofs -/

lemma getD_set_self_of_lt {α : Type} {l : List α} {i : ℕ} (h : i < l.length) (a d : α) :
    (l.set i a).getD i d = a := by
  rw [List.getD_eq_getElem?_getD, List.getElem?_set_self', List.getElem?_eq_getElem h]
  rfl

lemma getD_set_ne_of {α : Type} {l : List α} {i j : ℕ} (h : j ≠ i) (a d : α) :
    (l.set i a).getD j d = l.getD j d := by
  rw [List.getD_eq_getElem?_getD, List.getD_eq_getElem?_getD, List.getElem?_set_ne (Ne.symm h)]

lemma insertLess_perm (less : α → α → Bool) (a : α) (l : List α) :
    (insertLess less a l).Perm (a :: l) := by
  induction l with
  | nil => rfl
  | cons b t ih =>
    rw [insertLess]
    split
    · exact ((ih.cons b).trans (List.Perm.swap a b t))
    · rfl

lemma sortByLess_perm (less : α → α → Bool) (l : List α) :
    (sortByLess less l).Perm l := by
  induction l with
  | nil => rfl
  | cons a t ih =>
    rw [sortByLess]
    exact (insertLess_perm less a (sortByLess less t)).trans (ih.cons a)

/-! ### C6: the Q-learning update -/

/-- C6: `QLearningAgent.Learn` rewrites the single entry
`Q[t.state][t.action]` to
`old + alpha * ((reward + gamma * (0 if done else Max(nextState))) - old)`,
where `Max` of an empty row is 0, and leaves every other entry unchanged. -/
theorem qlearning_learn_update (ag : QLearningAgent) (t : Transition)
    (hs : t.state.index < ag.Q.Q.length)
    (ha : t.action.toIdx < (ag.Q.Q.getD t.state.index []).length) :
    (ag.learn t).Q.get t.state t.action
        = ag.Q.get t.state t.action
          + ag.alpha * ((t.reward + ag.gamma *
              (if t.done then 0 else MaxValue (ag.Q.Q.getD t.nextState.index [])))
            - ag.Q.get t.state t.action)
    ∧ ∀ i j : ℕ, i ≠ t.state.index ∨ j ≠ t.action.toIdx →
        ((ag.learn t).Q.Q.getD i []).getD j 0 = (ag.Q.Q.getD i []).getD j 0 := by
  constructor
  · show (ag.Q.setVal t.state t.action _).get t.state t.action = _
    rw [QTable.setVal, QTable.get]
    show ((ag.Q.Q.set t.state.index _).getD t.state.index []).getD t.action.toIdx 0 = _
    rw [getD_set_self_of_lt hs, getD_set_self_of_lt ha]
    rfl
  · intro i j hij
    show ((ag.Q.Q.set t.state.index _).getD i []).getD j 0 = _
    by_cases hi : i = t.state.index
    · rcases hij with h | h
      · exact absurd hi h
      · subst hi
        rw [getD_set_self_of_lt hs, getD_set_ne_of h]
    · rw [getD_set_ne_of hi]

/-- Witness for `qlearning_learn_update`: a 2-state, 2-slot table with
`alpha = gamma = 1/2`, reward 1, `done = false`; the updated entry becomes
`2 + 1/2 * ((1 + 1/2 * 4) - 2) = 5/2` and the entry `(0,0)` is untouched. -/
theorem qlearning_learn_update_witness :
    ((QLearningAgent.mk ⟨[[1, 2], [3, 4]]⟩ (1 / 2) (1 / 2)).learn
        ⟨NewState 0 0 0, .buySmall, 1, NewState 0 0 1, false⟩).Q.get (NewState 0 0 0) .buySmall
      = 5 / 2
    ∧ (((QLearningAgent.mk ⟨[[1, 2], [3, 4]]⟩ (1 / 2) (1 / 2)).learn
        ⟨NewState 0 0 0, .buySmall, 1, NewState 0 0 1, false⟩).Q.Q.getD 0 []).getD 0 0 = 1 := by
  have h := qlearning_learn_update (QLearningAgent.mk ⟨[[1, 2], [3, 4]]⟩ (1 / 2) (1 / 2))
    ⟨NewState 0 0 0, .buySmall, 1, NewState 0 0 1, false⟩ (by decide) (by decide)
  constructor
  · rw [h.1]
    norm_num [QTable.get, NewState, Encode, NumPositionCategories, MaxValue, Action.toIdx]
  · exact h.2 0 0 (by right; decide)

/-! ### C8: every constructed state index is in range -/

lemma maValuesAt_map_index (prices : List ℚ) (idx : ℕ) :
    (maValuesAt prices idx).map (fun v => v.index) = maTags := by
  simp [maValuesAt, maPeriods, maTags]

lemma getMAOrdering_perm_or_nil (prices : List ℚ) (idx : ℕ) :
    GetMAOrdering prices idx = [] ∨ (GetMAOrdering prices idx).Perm maTags := by
  rw [GetMAOrdering]
  split
  · right
    have h1 := (sortByLess_perm maLess (maValuesAt prices idx)).map (fun v => v.index)
    rw [maValuesAt_map_index] at h1
    exact h1
  · left
    rfl

lemma getMAStateForIndex_lt (prices : List ℚ) (idx : ℕ) :
    GetMAStateForIndex prices idx < 5040 := by
  rw [GetMAStateForIndex]
  split
  · rcases getMAOrdering_perm_or_nil prices idx with h | h
    · rename_i hlen
      rw [h] at hlen
      simp at hlen
    · exact (decode_encode_of_perm h).2
  · norm_num

lemma getCashCategory_lt (cash pv : ℚ) : GetCashCategory cash pv < 3 := by
  rw [GetCashCategory]
  split_ifs <;> norm_num

lemma getSharesCategory_lt (sv pv : ℚ) : GetSharesCategory sv pv < 3 := by
  rw [GetSharesCategory]
  split_ifs <;> norm_num

lemma encode_lt_numStates {m c s : ℕ} (hm : m < 5040) (hc : c < 3) (hs : s < 3) :
    Encode m c s < NumStates := by
  rw [Encode, NumStates, NumMarketStates, NumPositionCategories]
  omega

/-- C8: every `State` the environment constructs through `getState` (the
default state included) has its index in `[0, NumStates)`, where
`NumStates = 5040 * 3 * 3` is the product of the factor cardinalities of the
ranking-based scheme (the index is a natural number, so it is never below
zero). -/
theorem getState_index_lt_numStates (e : MarketEnv) :
    e.getState.index < NumStates := by
  rw [MarketEnv.getState]
  split
  · exact encode_lt_numStates (by norm_num) (by norm_num) (by norm_num)
  · split
    · exact encode_lt_numStates (by norm_num) (by norm_num) (by norm_num)
    · exact encode_lt_numStates (getMAStateForIndex_lt _ _) (getCashCategory_lt _ _)
        (getSharesCategory_lt _ _)

/-! ### C9: the moving-average ordering tie-break -/

/-- C9: at an index where the current price and all six moving-average
values are exactly equal, `GetMAOrdering` returns the tag order
`[1,2,3,4,5,6,7]`; and in general the sort comparator treats values within
1e-10 of each other as tied and ordered by ascending tag, while non-tied
values are ordered descending by value. -/
theorem ma_ordering_equal_values_and_tie_break :
    (∀ (prices : List ℚ) (idx : ℕ), idx < prices.length →
      (∀ v ∈ maValuesAt prices idx, v.value = prices.getD idx 0) →
      GetMAOrdering prices idx = [1, 2, 3, 4, 5, 6, 7])
    ∧ (∀ a b : ValueWithIndex,
        maLess a b = true ↔
          (|a.value - b.value| < epsTie ∧ a.index < b.index)
          ∨ (epsTie ≤ |a.value - b.value| ∧ b.value < a.value)) := by
  constructor
  · intro prices idx hidx hall
    rw [GetMAOrdering, if_pos hidx]
    simp only [maValuesAt, maPeriods, List.map, List.cons_append, List.nil_append,
      List.mem_cons, List.not_mem_nil, or_false, forall_eq_or_imp, forall_eq] at hall
    obtain ⟨h1, h2, h3, h4, h5, h6, h7⟩ := hall
    simp only [maValuesAt, maPeriods, List.map, List.cons_append, List.nil_append]
    rw [h1, h2, h3, h4, h5, h6]
    norm_num [sortByLess, insertLess, maLess, epsTie]
  · intro a b
    rw [maLess]
    split_ifs with h
    · simp [h, not_le.mpr h]
    · simp [h, not_lt.mp h, not_lt.mp h]

lemma getD_replicate_of_lt {α : Type} {n j : ℕ} (c d : α) (h : j < n) :
    (List.replicate n c).getD j d = c := by
  rw [List.getD_eq_getElem?_getD, List.getElem?_replicate, if_pos h]
  rfl

lemma sum_map_getD_replicate {c : ℚ} {n : ℕ} :
    ∀ (p s : ℕ), s + p ≤ n →
      ((List.range' s p).map (fun j => (List.replicate n c).getD j 0)).sum = p * c := by
  intro p
  induction p with
  | zero => intro s _; simp
  | succ p ih =>
    intro s hsp
    rw [List.range'_succ, List.map_cons, List.sum_cons,
      getD_replicate_of_lt c 0 (by omega), ih (s + 1) (by omega)]
    push_cast
    ring

lemma maValueAt_replicate {c : ℚ} {n idx period : ℕ} (hp : 0 < period)
    (hper : period ≤ idx + 1) (hidx : idx < n) :
    maValueAt (List.replicate n c) idx period = c := by
  rw [maValueAt, sum_map_getD_replicate period (idx + 1 - period) (by omega)]
  rw [mul_comm, mul_div_assoc, div_self (by positivity), mul_one]

lemma maValuesAt_replicate_const :
    ∀ v ∈ maValuesAt (List.replicate 60 (100 : ℚ)) 59,
      v.value = (List.replicate 60 (100 : ℚ)).getD 59 0 := by
  intro v hv
  rw [getD_replicate_of_lt (100 : ℚ) 0 (show (59 : ℕ) < 60 by norm_num)]
  simp only [maValuesAt, maPeriods, List.map_cons, List.map_nil, List.cons_append,
    List.nil_append, List.mem_cons, List.not_mem_nil, or_false] at hv
  rcases hv with h | h | h | h | h | h | h <;> subst h
  · exact maValueAt_replicate (by norm_num) (by norm_num) (by norm_num)
  · exact maValueAt_replicate (by norm_num) (by norm_num) (by norm_num)
  · exact maValueAt_replicate (by norm_num) (by norm_num) (by norm_num)
  · exact maValueAt_replicate (by norm_num) (by norm_num) (by norm_num)
  · exact maValueAt_replicate (by norm_num) (by norm_num) (by norm_num)
  · exact maValueAt_replicate (by norm_num) (by norm_num) (by norm_num)
  · show (List.replicate 60 (100 : ℚ)).getD 59 0 = 100
    exact getD_replicate_of_lt (100 : ℚ) 0 (show (59 : ℕ) < 60 by norm_num)

/-- Witness for `ma_ordering_equal_values_and_tie_break` on a constant price
series of 60 prices at value 100, observed at index 59. -/
theorem ma_ordering_equal_values_witness :
    (∀ v ∈ maValuesAt (List.replicate 60 (100 : ℚ)) 59,
        v.value = (List.replicate 60 (100 : ℚ)).getD 59 0)
    ∧ GetMAOrdering (List.replicate 60 (100 : ℚ)) 59 = [1, 2, 3, 4, 5, 6, 7] :=
  ⟨maValuesAt_replicate_const,
   ma_ordering_equal_values_and_tie_break.1 (List.replicate 60 (100 : ℚ)) 59
    (by norm_num) maValuesAt_replicate_const⟩

/-! ### C1: the terminal check and done flag of Step -/

/-- A concrete environment one step before the end of a 3-price series:
`currentIdx = 1 = len(prices) - 2`. -/
def envNearEnd : MarketEnv :=
  ⟨[1, 1, 1], 1, 100, 0, 100, 1, 1 / 500, 0, 0, 3, 1 / 100⟩

/-- A concrete environment at the end of a 3-price series:
`currentIdx = 2 = len(prices) - 1`. -/
def envAtEnd : MarketEnv :=
  ⟨[1, 1, 1], 2, 100, 0, 100, 1, 1 / 500, 0, 0, 3, 1 / 100⟩

/-- Counterexample to C1 as stated: at `currentIdx = len(prices) - 2` the
step is NOT terminal — a buy mutates the cash and the index advances — and
the claimed done rule is also off by one: a step that advances the index to
`len(prices) - 2` (here from index 1 to 2 of a 4-price series) reports
`done = false` although the claim predicts `true`. -/
theorem step_terminal_check_counterexample :
    envNearEnd.prices.length - 2 ≤ envNearEnd.currentIdx
    ∧ (envNearEnd.step .buySmall).1.cash ≠ envNearEnd.cash
    ∧ (envNearEnd.step .buySmall).1.currentIdx ≠ envNearEnd.currentIdx
    ∧ ((⟨[1, 1, 1, 1], 1, 100, 0, 100, 1, 1 / 500, 0, 0, 3, 1 / 100⟩ :
          MarketEnv).step .nothing).2.2 = false := by
  refine ⟨by norm_num [envNearEnd], ?_, ?_, ?_⟩
  · show (envNearEnd.step .buySmall).1.cash ≠ 100
    rw [MarketEnv.step, if_neg (by norm_num [envNearEnd])]
    show envNearEnd.cash - envNearEnd.cash * BuySmall ≠ 100
    norm_num [envNearEnd, BuySmall]
  · rw [MarketEnv.step, if_neg (by norm_num [envNearEnd])]
    show envNearEnd.currentIdx + 1 ≠ envNearEnd.currentIdx
    norm_num
  · rw [MarketEnv.step, if_neg (by norm_num)]
    norm_num

/-- C1 (amended): `Step` returns `(current State, reward 0, done = true)`
without mutation exactly when `currentIdx ≥ len(prices) - 1`; on a
non-terminal step the index advances by one and the reported done flag is
true exactly when the advanced index satisfies
`index ≥ len(prices) - 1`. -/
theorem step_terminal_check_and_done (e : MarketEnv) (a : Action) :
    (e.prices.length - 1 ≤ e.currentIdx → e.step a = (e, 0, true))
    ∧ (e.currentIdx < e.prices.length - 1 →
        (e.step a).1.currentIdx = e.currentIdx + 1
        ∧ ((e.step a).2.2 = true ↔ e.prices.length - 1 ≤ e.currentIdx + 1)) := by
  constructor
  · intro h
    rw [MarketEnv.step, if_pos h]
  · intro h
    rw [MarketEnv.step, if_neg (by omega)]
    exact ⟨rfl, by simp⟩

/-- Witness for `step_terminal_check_and_done`: the terminal branch at
`currentIdx = 2` of a 3-price series, and the non-terminal branch at
`currentIdx = 1` (which advances to the final index and reports done). -/
theorem step_terminal_check_and_done_witness :
    envAtEnd.step .nothing = (envAtEnd, 0, true)
    ∧ ((envNearEnd.step .nothing).1.currentIdx = envNearEnd.currentIdx + 1
        ∧ ((envNearEnd.step .nothing).2.2 = true ↔
            envNearEnd.prices.length - 1 ≤ envNearEnd.currentIdx + 1)) :=
  ⟨(step_terminal_check_and_done envAtEnd .nothing).1 (by norm_num [envAtEnd]),
   (step_terminal_check_and_done envNearEnd .nothing).2 (by norm_num [envNearEnd])⟩

/-! ### C5: cash and shares stay non-negative -/

/-- Fold a list of actions through `Step`, keeping the mutated environment. -/
noncomputable def stepFold (e : MarketEnv) (acts : List Action) : MarketEnv :=
  acts.foldl (fun cur a => (cur.step a).1) e

lemma executeAction_nonneg {e : MarketEnv} {price : ℚ} (a : Action)
    (hprice : 0 < price) (hc0 : 0 ≤ e.commission) (hc1 : e.commission ≤ 1)
    (hcash : 0 ≤ e.cash) (hshares : 0 ≤ e.shares) :
    0 ≤ (e.executeAction a price).cash ∧ 0 ≤ (e.executeAction a price).shares := by
  cases a with
  | nothing => exact ⟨hcash, hshares⟩
  | buySmall =>
    constructor
    · show 0 ≤ e.cash - e.cash * BuySmall
      rw [BuySmall]
      nlinarith
    · show 0 ≤ e.shares + (e.cash * BuySmall - e.cash * BuySmall * e.commission) / price
      have hnum : 0 ≤ e.cash * BuySmall - e.cash * BuySmall * e.commission := by
        rw [BuySmall]
        nlinarith
      positivity
  | buyLarge =>
    constructor
    · show 0 ≤ e.cash - e.cash * BuyLarge
      rw [BuyLarge]
      nlinarith
    · show 0 ≤ e.shares + (e.cash * BuyLarge - e.cash * BuyLarge * e.commission) / price
      have hnum : 0 ≤ e.cash * BuyLarge - e.cash * BuyLarge * e.commission := by
        rw [BuyLarge]
        nlinarith
      positivity
  | sellSmall =>
    rw [MarketEnv.executeAction]
    split
    · exact ⟨hcash, hshares⟩
    · constructor
      · show 0 ≤ e.cash + (e.shares * SellSmall * price - e.shares * SellSmall * price * e.commission)
        rw [SellSmall]
        nlinarith [mul_nonneg (mul_nonneg hshares hprice.le) (sub_nonneg.mpr hc1)]
      · show 0 ≤ e.shares - e.shares * SellSmall
        rw [SellSmall]
        nlinarith
  | sellLarge =>
    rw [MarketEnv.executeAction]
    split
    · exact ⟨hcash, hshares⟩
    · constructor
      · show 0 ≤ e.cash + (e.shares * SellLarge * price - e.shares * SellLarge * price * e.commission)
        rw [SellLarge]
        nlinarith [mul_nonneg (mul_nonneg hshares hprice.le) (sub_nonneg.mpr hc1)]
      · show 0 ≤ e.shares - e.shares * SellLarge
        rw [SellLarge]
        nlinarith

lemma executeAction_frame (e : MarketEnv) (a : Action) (price : ℚ) :
    (e.executeAction a price).prices = e.prices
    ∧ (e.executeAction a price).commission = e.commission := by
  cases a <;> first
    | exact ⟨rfl, rfl⟩
    | (rw [MarketEnv.executeAction]; split <;> exact ⟨rfl, rfl⟩)

lemma calcTradePenalty_frame (e : MarketEnv) (a : Action) :
    (e.calcTradePenalty a).2.prices = e.prices
    ∧ (e.calcTradePenalty a).2.commission = e.commission
    ∧ (e.calcTradePenalty a).2.cash = e.cash
    ∧ (e.calcTradePenalty a).2.shares = e.shares := by
  rw [MarketEnv.calcTradePenalty]
  split
  · exact ⟨rfl, rfl, rfl, rfl⟩
  · split
    · exact ⟨rfl, rfl, rfl, rfl⟩
    · exact ⟨rfl, rfl, rfl, rfl⟩

lemma step_preserves_nonneg {e : MarketEnv} (a : Action)
    (hp : ∀ p ∈ e.prices, 0 < p) (hc0 : 0 ≤ e.commission) (hc1 : e.commission ≤ 1)
    (hcash : 0 ≤ e.cash) (hshares : 0 ≤ e.shares) :
    0 ≤ (e.step a).1.cash ∧ 0 ≤ (e.step a).1.shares
    ∧ (e.step a).1.prices = e.prices ∧ (e.step a).1.commission = e.commission := by
  rw [MarketEnv.step]
  split
  · exact ⟨hcash, hshares, rfl, rfl⟩
  · rename_i hterm
    have hidx : e.currentIdx < e.prices.length := by omega
    have hprice : 0 < e.prices.getD e.currentIdx 0 := by
      rw [List.getD_eq_getElem?_getD, List.getElem?_eq_getElem hidx]
      exact hp _ (List.getElem_mem hidx)
    obtain ⟨hcash1, hshares1⟩ :=
      executeAction_nonneg a hprice hc0 hc1 hcash hshares
    obtain ⟨hfp, hfc⟩ := executeAction_frame e a (e.prices.getD e.currentIdx 0)
    obtain ⟨hp2, hc2, hca2, hsh2⟩ :=
      calcTradePenalty_frame (e.executeAction a (e.prices.getD e.currentIdx 0)) a
    constructor
    · show 0 ≤ ((e.executeAction a (e.prices.getD e.currentIdx 0)).calcTradePenalty a).2.cash
      rw [hca2]
      exact hcash1
    constructor
    · show 0 ≤ ((e.executeAction a (e.prices.getD e.currentIdx 0)).calcTradePenalty a).2.shares
      rw [hsh2]
      exact hshares1
    constructor
    · show ((e.executeAction a (e.prices.getD e.currentIdx 0)).calcTradePenalty a).2.prices = _
      rw [hp2, hfp]
    · show ((e.executeAction a (e.prices.getD e.currentIdx 0)).calcTradePenalty a).2.commission = _
      rw [hc2, hfc]

lemma stepFold_nonneg : ∀ (acts : List Action) (e : MarketEnv),
    (∀ p ∈ e.prices, 0 < p) → 0 ≤ e.commission → e.commission ≤ 1 →
    0 ≤ e.cash → 0 ≤ e.shares →
    0 ≤ (stepFold e acts).cash ∧ 0 ≤ (stepFold e acts).shares := by
  intro acts
  induction acts with
  | nil => intro e _ _ _ hcash hshares; exact ⟨hcash, hshares⟩
  | cons a rest ih =>
    intro e hp hc0 hc1 hcash hshares
    obtain ⟨h1, h2, h3, h4⟩ := step_preserves_nonneg a hp hc0 hc1 hcash hshares
    exact ih (e.step a).1 (h3 ▸ hp) (h4 ▸ hc0) (h4 ▸ hc1) h1 h2

/-- C5: for every environment whose prices are positive and whose commission
is a genuine rate (between 0 and 1), and for every finite action sequence
applied through `Step` after `Reset`, cash and shares stay non-negative
after every step. -/
theorem reset_stepFold_cash_shares_nonneg (e : MarketEnv) (acts : List Action)
    (hp : ∀ p ∈ e.prices, 0 < p) (hc0 : 0 ≤ e.commission) (hc1 : e.commission ≤ 1)
    (hinit : 0 ≤ e.initialValue) :
    0 ≤ (stepFold e.reset acts).cash ∧ 0 ≤ (stepFold e.reset acts).shares := by
  exact stepFold_nonneg acts e.reset hp hc0 hc1 hinit le_rfl

/-- Witness for `reset_stepFold_cash_shares_nonneg`: a buy followed by a
large sell and a no-op on a short positive price series. -/
theorem reset_stepFold_cash_shares_nonneg_witness :
    0 ≤ (stepFold (envNearEnd.reset) [.buySmall, .sellLarge, .nothing]).cash
    ∧ 0 ≤ (stepFold (envNearEnd.reset) [.buySmall, .sellLarge, .nothing]).shares :=
  reset_stepFold_cash_shares_nonneg envNearEnd [.buySmall, .sellLarge, .nothing]
    (by norm_num [envNearEnd]) (by norm_num [envNearEnd]) (by norm_num [envNearEnd])
    (by norm_num [envNearEnd])

/-! ### C7: the step reward rule -/

/-- An environment that has already made three consecutive buys (the default
penalty threshold), about to buy again. -/
def envPenalized : MarketEnv :=
  ⟨[1, 1, 1], 0, 100, 0, 100, 0, 1 / 500, 3, 0, 3, 1 / 100⟩

/-- Counterexample to C7 as stated: on a step whose consecutive-buy counter
exceeds the threshold, the returned reward is the log return MINUS the trade
penalty, so it differs from `CalculateReward` of the step's portfolio values
even though the portfolio value before the step is positive. -/
theorem step_reward_counterexample :
    0 < envPenalized.cash + envPenalized.shares * envPenalized.prices.getD envPenalized.currentIdx 0
    ∧ (envPenalized.step .buySmall).2.1 ≠
        CalculateReward
          (envPenalized.cash + envPenalized.shares * envPenalized.prices.getD envPenalized.currentIdx 0)
          ((envPenalized.executeAction .buySmall (envPenalized.prices.getD envPenalized.currentIdx 0)).cash
            + (envPenalized.executeAction .buySmall (envPenalized.prices.getD envPenalized.currentIdx 0)).shares
              * envPenalized.prices.getD (envPenalized.currentIdx + 1) 0) := by
  constructor
  · norm_num [envPenalized]
  · rw [MarketEnv.step, if_neg (by norm_num [envPenalized])]
    show CalculateReward _ _ -
        ((((envPenalized.executeAction .buySmall _).calcTradePenalty .buySmall)).1 : ℝ) ≠ _
    have hpen : ((envPenalized.executeAction .buySmall
        (envPenalized.prices.getD envPenalized.currentIdx 0)).calcTradePenalty .buySmall).1
        = 1 / 100 := by
      rw [MarketEnv.calcTradePenalty]
      norm_num [Action.isBuy]
      rw [if_pos]
      · show envPenalized.tradePenalty = 1 / 100
        norm_num [envPenalized]
      · show (envPenalized.executeAction .buySmall _).maxConsecutiveTrades <
          (envPenalized.executeAction .buySmall _).consecutiveBuys + 1
        show envPenalized.maxConsecutiveTrades < envPenalized.consecutiveBuys + 1
        norm_num [envPenalized]
    rw [hpen]
    intro h
    have := sub_eq_self.mp h
    norm_num at this

/-- C7 (amended): the step reward is `CalculateReward` of the portfolio value
before the action (at the current price) and after it (post-action holdings
at the next price) MINUS the consecutive-trade penalty of that step;
`CalculateReward` itself is `ln(after/before)` for `before > 0` and `0`
otherwise, so `CalculateReward v v = 0` for `v > 0`, and for fixed
`before > 0` it is strictly increasing in a positive `after`. -/
theorem step_reward_rule :
    (∀ (e : MarketEnv) (a : Action), e.currentIdx < e.prices.length - 1 →
      (e.step a).2.1 =
        CalculateReward
          (e.cash + e.shares * e.prices.getD e.currentIdx 0)
          ((e.executeAction a (e.prices.getD e.currentIdx 0)).cash
            + (e.executeAction a (e.prices.getD e.currentIdx 0)).shares
              * e.prices.getD (e.currentIdx + 1) 0)
        - (((e.executeAction a (e.prices.getD e.currentIdx 0)).calcTradePenalty a).1 : ℝ))
    ∧ (∀ before after : ℚ,
        CalculateReward before after =
          if 0 < before then Real.log ((after : ℝ) / (before : ℝ)) else 0)
    ∧ (∀ v : ℚ, 0 < v → CalculateReward v v = 0)
    ∧ (∀ before a1 a2 : ℚ, 0 < before → 0 < a1 → a1 < a2 →
        CalculateReward before a1 < CalculateReward before a2) := by
  refine ⟨?_, fun _ _ => rfl, ?_, ?_⟩
  · intro e a h
    rw [MarketEnv.step, if_neg (by omega)]
  · intro v hv
    rw [CalculateReward, if_pos hv, div_self (by exact_mod_cast hv.ne'), Real.log_one]
  · intro before a1 a2 hb h1 h12
    rw [CalculateReward, CalculateReward, if_pos hb, if_pos hb]
    have hbR : (0 : ℝ) < (before : ℝ) := by exact_mod_cast hb
    have h1R : (0 : ℝ) < (a1 : ℝ) := by exact_mod_cast h1
    apply Real.log_lt_log (div_pos h1R hbR)
    exact (div_lt_div_iff_of_pos_right hbR).mpr (by exact_mod_cast h12)

/-- Witness for `step_reward_rule`: the reward decomposition on a concrete
non-terminal step, `CalculateReward 1 1 = 0` and strict monotonicity at
`1 < 2`. -/
theorem step_reward_rule_witness :
    (envNearEnd.step .nothing).2.1 =
      CalculateReward
        (envNearEnd.cash + envNearEnd.shares * envNearEnd.prices.getD envNearEnd.currentIdx 0)
        ((envNearEnd.executeAction .nothing (envNearEnd.prices.getD envNearEnd.currentIdx 0)).cash
          + (envNearEnd.executeAction .nothing (envNearEnd.prices.getD envNearEnd.currentIdx 0)).shares
            * envNearEnd.prices.getD (envNearEnd.currentIdx + 1) 0)
      - (((envNearEnd.executeAction .nothing
            (envNearEnd.prices.getD envNearEnd.currentIdx 0)).calcTradePenalty .nothing).1 : ℝ)
    ∧ CalculateReward 1 1 = 0
    ∧ CalculateReward 1 1 < CalculateReward 1 2 :=
  ⟨step_reward_rule.1 envNearEnd .nothing (by norm_num [envNearEnd]),
   step_reward_rule.2.2.1 1 (by norm_num),
   step_reward_rule.2.2.2 1 1 2 (by norm_num) (by norm_num) (by norm_num)⟩

/-! ### Local approximation, k-nearest-neighbour forecaster
(pkg/local-approximation/local_approximation.go, heap-based; and the
sort-based variant of pkg/trainer/loop.go)

The Go code stores the Euclidean distance `sqrt(ssd)` in each neighbor and
only ever compares distances, takes their minimum, and feeds them to the
inverse-distance weights at the very end.  Since `sqrt` is a strictly
monotone bijection of the non-negative reals, the embedding stores the
rational sum of squared differences (`dist2`) — keeping every comparison,
and hence the control flow, exactly the code's — and applies `Real.sqrt`
at the output boundary (minimum distance and prediction weights).

`container/heap` is Go standard library; its `up`/`down`/`Push`/`Fix`/`Pop`
algorithms are embedded verbatim (`heapUp`, `heapDown`, `heapPush`,
`heapPopRoot`), with the array as a list and `Swap` as `listSwap`.
`heap.Fix(h, 0)` is `down` from the root (the subsequent `up(0)` of `Fix`
is a no-op).  The unstable Go sorts (`sort.Slice`, `slices.SortFunc`) are
modelled by the deterministic stable `sortByLess`, which is what Go itself
runs on the short slices of the concrete instances below, and the
universal statements proved through it do not depend on the order of
equal elements. -/

/-- Error kinds of `LocalApproximation` (both variants declare the same
six errors). -/
inductive LAError where
  | emptyPrices
  | invalidWindowSize
  | invalidNeighborsCount
  | insufficientData
  | insufficientHistoricalData
  | noPatternsFound
  deriving DecidableEq

/-- A candidate neighbour: squared distance and the position where its
window ends. -/
structure neighbor where
  dist2 : ℚ
  position : ℕ
  deriving DecidableEq

/-- Default slot value for out-of-range array reads (never hit on the
verified in-range paths). -/
def nbDefault : neighbor := ⟨0, 0⟩

/-- Array swap `h.Swap(i, j)` on the list representation. -/
def listSwap (l : List α) (i j : ℕ) (d : α) : List α :=
  (l.set i (l.getD j d)).set j (l.getD i d)

/-- `container/heap`'s `up`, with an explicit fuel that bounds the loop. The
sift position strictly decreases, so `heapUp` hands the loop `j + 1` fuel
and the fuel never expires; structural recursion on the fuel keeps the
definition kernel-computable. -/
def heapUpGo : ℕ → List neighbor → ℕ → List neighbor
  | 0, l, _ => l
  | fuel + 1, l, j =>
    if j = 0 then l
    else if (l.getD ((j - 1) / 2) nbDefault).dist2 < (l.getD j nbDefault).dist2 then
      heapUpGo fuel (listSwap l ((j - 1) / 2) j nbDefault) ((j - 1) / 2)
    else l

/-- `container/heap`'s `up`: sift position `j` up while it beats its parent
(`Less(j, i)` of the max-heap is `dist2 j > dist2 i`). -/
def heapUp (l : List neighbor) (j : ℕ) : List neighbor := heapUpGo (j + 1) l j

/-- The child of `i` the sift-down steps to: the right child when it exists
and beats the left child, the left child otherwise (the Go `j` selection). -/
def downChild (l : List neighbor) (i n : ℕ) : ℕ :=
  if 2 * i + 2 < n ∧
      (l.getD (2 * i + 1) nbDefault).dist2 < (l.getD (2 * i + 2) nbDefault).dist2
    then 2 * i + 2 else 2 * i + 1

/-- The Go `j` stays strictly between `i` and the bound `n`. -/
lemma downChild_bounds (l : List neighbor) {i n : ℕ} (h : 2 * i + 1 < n) :
    i < downChild l i n ∧ downChild l i n < n := by
  rw [downChild]
  split <;> omega

/-- `container/heap`'s `down` loop with an explicit fuel bounding `n - i`,
which strictly decreases. -/
def heapDownGo : ℕ → List neighbor → ℕ → ℕ → List neighbor
  | 0, l, _, _ => l
  | fuel + 1, l, i, n =>
    if n ≤ 2 * i + 1 then l
    else if (l.getD i nbDefault).dist2 < (l.getD (downChild l i n) nbDefault).dist2 then
      heapDownGo fuel (listSwap l i (downChild l i n) nbDefault) (downChild l i n) n
    else l

/-- `container/heap`'s `down` restricted to the first `n` slots: sift
position `i` down along its larger child (fuel `n - i` is exact: when it is
0 the loop guard `n ≤ 2i + 1` holds as well). -/
def heapDown (l : List neighbor) (i n : ℕ) : List neighbor := heapDownGo (n - i) l i n

/-- `heap.Push`: append and sift up from the last slot. -/
def heapPush (l : List neighbor) (c : neighbor) : List neighbor :=
  heapUp (l ++ [c]) l.length

/-- `heap.Pop`: swap the root with the last slot, sift the root down within
the shortened bound, and remove the last slot (the old root). -/
def heapPopRoot (l : List neighbor) : neighbor × List neighbor :=
  let l1 := heapDown (listSwap l 0 (l.length - 1) nbDefault) 0 (l.length - 1)
  (l1.getD (l.length - 1) nbDefault, l1.take (l.length - 1))

/-- Squared L2 distance between the target window (the last `m` returns)
and the window ending at position `i`. -/
def ssdAt (returns : List ℚ) (m i : ℕ) : ℚ :=
  (List.range m).foldl
    (fun acc j =>
      acc + (returns.getD (returns.length - m + j) 0 - returns.getD (i - m + 1 + j) 0) *
        (returns.getD (returns.length - m + j) 0 - returns.getD (i - m + 1 + j) 0))
    0

/-- The scanned candidates: windows ending at `i` for
`minStart = m-1 ≤ i ≤ maxStart = len(returns)-2`. -/
def laCandidates (returns : List ℚ) (m : ℕ) : List neighbor :=
  (List.range' (m - 1) (returns.length - m)).map (fun i => ⟨ssdAt returns m i, i⟩)

/-- One iteration of the heap scan: push while fewer than `n` neighbours
are kept, then replace the root (the farthest kept neighbour) whenever a
strictly closer candidate arrives (`heap.Fix` at the root is a sift-down). -/
def laScanStep (n : ℕ) (h : List neighbor) (c : neighbor) : List neighbor :=
  if h.length < n then heapPush h c
  else if c.dist2 < (h.getD 0 nbDefault).dist2 then heapDown (h.set 0 c) 0 h.length
  else h

/-- The heap scan over all candidates. -/
def laScanHeap (returns : List ℚ) (m n : ℕ) : List neighbor :=
  (laCandidates returns m).foldl (laScanStep n) []

/-- Ascending-by-distance comparator of the final sorts. -/
def nbLess (a b : neighbor) : Bool := decide (a.dist2 < b.dist2)

/-- The drain loop, with fuel bounding the heap length (each `Pop` removes
one slot). -/
def popAllGo : ℕ → List neighbor → List neighbor
  | 0, _ => []
  | fuel + 1, l =>
    if l.length = 0 then []
    else (heapPopRoot l).1 :: popAllGo fuel (heapPopRoot l).2

/-- `popAll`: drain the heap through `heap.Pop`. -/
def popAll (l : List neighbor) : List neighbor := popAllGo l.length l

/-- The selection phase of the heap-based `LocalApproximation`: the guard
chain, the bounded heap scan, draining the heap and the final ascending
sort.  Returns the kept neighbours (errors carry no values; the Go error
returns also carry `(0, 1000.0)`, which no caller consumes). -/
def laSelectHeap (returns : List ℚ) (m n : ℕ) : Except LAError (List neighbor) :=
  if returns.length = 0 then .error .emptyPrices
  else if m < 1 then .error .invalidWindowSize
  else if n < 1 then .error .invalidNeighborsCount
  else if returns.length < m + 1 then .error .insufficientData
  else if returns.length - 1 - 1 < m - 1 then .error .insufficientHistoricalData
  else
    let kept := laScanHeap returns m n
    if kept.length = 0 then .error .noPatternsFound
    else .ok (sortByLess nbLess (popAll kept))

/-- The selection phase of the sort-based `LocalApproximation` of
trainer/loop.go: the same guard chain, then sort all candidates ascending
by distance and keep the first `min n (number of candidates)`. -/
def laSelectSort (returns : List ℚ) (m n : ℕ) : Except LAError (List neighbor) :=
  if returns.length = 0 then .error .emptyPrices
  else if m < 1 then .error .invalidWindowSize
  else if n < 1 then .error .invalidNeighborsCount
  else if returns.length < m + 1 then .error .insufficientData
  else if returns.length - 1 - 1 < m - 1 then .error .insufficientHistoricalData
  else
    let neighbors := laCandidates returns m
    if neighbors.length = 0 then .error .noPatternsFound
    else .ok ((sortByLess nbLess neighbors).take
        (if neighbors.length < n then neighbors.length else n))

/-- `slices.Min` over the kept distances, on the squared representation. -/
def minDist2 : List neighbor → ℚ
  | [] => 0
  | x :: xs => xs.foldl (fun acc nb => min acc nb.dist2) x.dist2

/-- The inverse-distance-weighted prediction over the kept neighbours: the
weight is `1 / (distance + 1e-10)` with the real distance `sqrt dist2`, and
the predicted value is the return one step after each neighbour's window. -/
noncomputable def laPrediction (returns : List ℚ) (kept : List neighbor) : ℝ :=
  (kept.map (fun nb =>
      (1 / (Real.sqrt ((nb.dist2 : ℚ) : ℝ) + 1 / 10 ^ 10)) *
        ((returns.getD (nb.position + 1) 0 : ℚ) : ℝ))).sum /
    (kept.map (fun nb => 1 / (Real.sqrt ((nb.dist2 : ℚ) : ℝ) + 1 / 10 ^ 10))).sum

/-- The heap-based `LocalApproximation`: prediction and minimum distance. -/
noncomputable def LocalApproximation (returns : List ℚ) (m n : ℕ) :
    Except LAError (ℝ × ℝ) :=
  match laSelectHeap returns m n with
  | .error e => .error e
  | .ok kept => .ok (laPrediction returns kept, Real.sqrt ((minDist2 kept : ℚ) : ℝ))

/-- The sort-based `LocalApproximation` of trainer/loop.go. -/
noncomputable def LocalApproximationSort (returns : List ℚ) (m n : ℕ) :
    Except LAError (ℝ × ℝ) :=
  match laSelectSort returns m n with
  | .error e => .error e
  | .ok kept => .ok (laPrediction returns kept, Real.sqrt ((minDist2 kept : ℚ) : ℝ))

/-! Phase A lemmas -/

lemma count_set_add {α : Type} [DecidableEq α] :
    ∀ (l : List α) (i : ℕ), i < l.length → ∀ (b d x : α),
      (l.set i b).count x + (if l.getD i d = x then 1 else 0)
        = l.count x + (if b = x then 1 else 0) := by
  intro l
  induction l with
  | nil => intro i hi; simp at hi
  | cons a t ih =>
    intro i hi b d x
    cases i with
    | zero =>
      simp only [List.set, List.getD_cons_zero, List.count_cons, beq_iff_eq]
      omega
    | succ i =>
      simp only [List.set, List.getD_cons_succ, List.count_cons, beq_iff_eq]
      have := ih i (by simpa using hi) b d x
      omega

lemma listSwap_length (l : List α) (i j : ℕ) (d : α) :
    (listSwap l i j d).length = l.length := by
  rw [listSwap, List.length_set, List.length_set]

lemma listSwap_perm {l : List neighbor} {i j : ℕ}
    (hi : i < l.length) (hj : j < l.length) :
    (listSwap l i j nbDefault).Perm l := by
  rw [List.perm_iff_count]
  intro x
  have hA : (l.set i (l.getD j nbDefault)).getD j nbDefault = l.getD j nbDefault := by
    by_cases hij : j = i
    · subst hij
      rw [getD_set_self_of_lt hj]
    · rw [getD_set_ne_of hij]
  have h1 := count_set_add (l.set i (l.getD j nbDefault)) j
    (by rw [List.length_set]; exact hj) (l.getD i nbDefault) nbDefault x
  have h2 := count_set_add l i hi (l.getD j nbDefault) nbDefault x
  rw [hA] at h1
  rw [listSwap]
  omega

lemma getD_listSwap {l : List neighbor} {i j : ℕ} (hi : i < l.length) (hj : j < l.length)
    (k : ℕ) :
    (listSwap l i j nbDefault).getD k nbDefault
      = if k = j then l.getD i nbDefault
        else if k = i then l.getD j nbDefault
        else l.getD k nbDefault := by
  rw [listSwap]
  by_cases hkj : k = j
  · subst hkj
    rw [if_pos rfl, getD_set_self_of_lt (by rw [List.length_set]; exact hj)]
  · rw [if_neg hkj, getD_set_ne_of hkj]
    by_cases hki : k = i
    · subst hki
      rw [if_pos rfl, getD_set_self_of_lt hi]
    · rw [if_neg hki, getD_set_ne_of hki]

lemma heapUpGo_length (fuel : ℕ) : ∀ (l : List neighbor) (j : ℕ),
    (heapUpGo fuel l j).length = l.length := by
  induction fuel with
  | zero => intro l j; rfl
  | succ fuel ih =>
    intro l j
    rw [heapUpGo]
    split
    · rfl
    · split
      · rw [ih, listSwap_length]
      · rfl

lemma heapUp_length (l : List neighbor) (j : ℕ) : (heapUp l j).length = l.length :=
  heapUpGo_length (j + 1) l j

lemma heapUpGo_perm (fuel : ℕ) : ∀ (l : List neighbor) (j : ℕ), j < l.length →
    (heapUpGo fuel l j).Perm l := by
  induction fuel with
  | zero => intro l j _; rfl
  | succ fuel ih =>
    intro l j hj
    rw [heapUpGo]
    split
    · rfl
    · split
      · rename_i hj0 _
        refine (ih _ _ ?_).trans (listSwap_perm (by omega) hj)
        rw [listSwap_length]
        omega
      · rfl

lemma heapUp_perm (l : List neighbor) (j : ℕ) (hj : j < l.length) :
    (heapUp l j).Perm l :=
  heapUpGo_perm (j + 1) l j hj

lemma heapDownGo_length (fuel : ℕ) : ∀ (l : List neighbor) (i n : ℕ),
    (heapDownGo fuel l i n).length = l.length := by
  induction fuel with
  | zero => intro l i n; rfl
  | succ fuel ih =>
    intro l i n
    rw [heapDownGo]
    split
    · rfl
    · split
      · rw [ih, listSwap_length]
      · rfl

lemma heapDown_length (l : List neighbor) (i n : ℕ) : (heapDown l i n).length = l.length :=
  heapDownGo_length (n - i) l i n

lemma heapDownGo_perm (fuel : ℕ) : ∀ (l : List neighbor) (i n : ℕ), n ≤ l.length →
    (heapDownGo fuel l i n).Perm l := by
  induction fuel with
  | zero => intro l i n _; rfl
  | succ fuel ih =>
    intro l i n hn
    rw [heapDownGo]
    split
    · rfl
    · rename_i h1
      split
      · have hb := downChild_bounds l (show 2 * i + 1 < n by omega)
        refine (ih _ _ _ ?_).trans (listSwap_perm (by omega) (by omega))
        rw [listSwap_length]
        exact hn
      · rfl

lemma heapDown_perm (l : List neighbor) (i n : ℕ) (hn : n ≤ l.length) :
    (heapDown l i n).Perm l :=
  heapDownGo_perm (n - i) l i n hn

lemma heapPush_length (l : List neighbor) (c : neighbor) :
    (heapPush l c).length = l.length + 1 := by
  rw [heapPush, heapUp_length, List.length_append, List.length_singleton]

lemma heapPush_perm (l : List neighbor) (c : neighbor) :
    (heapPush l c).Perm (l ++ [c]) := by
  rw [heapPush]
  exact heapUp_perm _ _ (by simp)


lemma take_append_getD_last (l : List neighbor) (h : l.length ≠ 0) :
    l.take (l.length - 1) ++ [l.getD (l.length - 1) nbDefault] = l := by
  have hlt : l.length - 1 < l.length := by omega
  have hc := List.take_concat_get l (l.length - 1) hlt
  rw [List.concat_eq_append] at hc
  rw [List.getD_eq_getElem?_getD, List.getElem?_eq_getElem hlt]
  show l.take (l.length - 1) ++ [l[l.length - 1]] = l
  rw [hc, show l.length - 1 + 1 = l.length by omega, List.take_length]

lemma heapPopRoot_perm (l : List neighbor) (h : l.length ≠ 0) :
    ((heapPopRoot l).1 :: (heapPopRoot l).2).Perm l := by
  rw [heapPopRoot]
  have hdlen : (heapDown (listSwap l 0 (l.length - 1) nbDefault) 0 (l.length - 1)).length
      = l.length := by
    rw [heapDown_length, listSwap_length]
  have hperm1 : (heapDown (listSwap l 0 (l.length - 1) nbDefault) 0 (l.length - 1)).Perm l :=
    (heapDown_perm _ _ _ (by rw [listSwap_length]; omega)).trans
      (listSwap_perm (by omega) (by omega))
  show ((heapDown (listSwap l 0 (l.length - 1) nbDefault) 0 (l.length - 1)).getD
      (l.length - 1) nbDefault ::
    (heapDown (listSwap l 0 (l.length - 1) nbDefault) 0 (l.length - 1)).take
      (l.length - 1)).Perm l
  refine List.Perm.trans ?_ hperm1
  have hsplit := take_append_getD_last
    (heapDown (listSwap l 0 (l.length - 1) nbDefault) 0 (l.length - 1)) (by omega)
  rw [hdlen] at hsplit
  conv_rhs => rw [← hsplit]
  exact (List.perm_append_singleton _ _).symm

lemma heapPopRoot_length (l : List neighbor) (h : l.length ≠ 0) :
    (heapPopRoot l).2.length = l.length - 1 := by
  rw [heapPopRoot]
  show ((heapDown (listSwap l 0 (l.length - 1) nbDefault) 0 (l.length - 1)).take
    (l.length - 1)).length = l.length - 1
  rw [List.length_take, heapDown_length, listSwap_length]
  omega

lemma popAllGo_perm (fuel : ℕ) : ∀ (l : List neighbor), l.length ≤ fuel →
    (popAllGo fuel l).Perm l := by
  induction fuel with
  | zero =>
    intro l hl
    have h0 : l = [] := List.length_eq_zero.mp (by omega)
    subst h0
    rfl
  | succ fuel ih =>
    intro l hl
    rw [popAllGo]
    split
    · rename_i h0
      rw [List.length_eq_zero.mp h0]
    · rename_i h0
      refine List.Perm.trans ?_ (heapPopRoot_perm l h0)
      exact List.Perm.cons _ (ih _ (by rw [heapPopRoot_length l h0]; omega))

lemma popAll_perm (l : List neighbor) : (popAll l).Perm l :=
  popAllGo_perm l.length l le_rfl

/-! The scan keeps `min n (number of candidates)` neighbours, all of them
candidates. -/

lemma laScanStep_length (n : ℕ) (h : List neighbor) (c : neighbor) (hle : h.length ≤ n) :
    (laScanStep n h c).length = min n (h.length + 1) := by
  rw [laScanStep]
  by_cases hlt : h.length < n
  · rw [if_pos hlt, heapPush_length]
    omega
  · rw [if_neg hlt]
    by_cases hrep : c.dist2 < (h.getD 0 nbDefault).dist2
    · rw [if_pos hrep, heapDown_length, List.length_set]
      omega
    · rw [if_neg hrep]
      omega

lemma scanFold_length (n : ℕ) (hn : 1 ≤ n) :
    ∀ (cs : List neighbor) (h : List neighbor), h.length ≤ n →
    (cs.foldl (laScanStep n) h).length = min n (h.length + cs.length) := by
  intro cs
  induction cs with
  | nil =>
    intro h hle
    simp only [List.foldl_nil, List.length_nil, Nat.add_zero]
    omega
  | cons c cs ih =>
    intro h hle
    rw [List.foldl_cons]
    have hstep := laScanStep_length n h c hle
    rw [ih _ (by omega), hstep]
    simp only [List.length_cons]
    omega

lemma scanFold_mem (n : ℕ) :
    ∀ (cs : List neighbor) (h : List neighbor) (x : neighbor),
    x ∈ cs.foldl (laScanStep n) h → x ∈ h ∨ x ∈ cs := by
  intro cs
  induction cs with
  | nil => intro h x hx; exact Or.inl hx
  | cons c cs ih =>
    intro h x hx
    rw [List.foldl_cons] at hx
    have hstep : x ∈ laScanStep n h c → x ∈ h ∨ x = c := by
      intro hx2
      rw [laScanStep] at hx2
      split at hx2
      · rcases List.mem_append.mp ((heapPush_perm h c).mem_iff.mp hx2) with hm | hm
        · exact Or.inl hm
        · exact Or.inr (List.mem_singleton.mp hm)
      · split at hx2
        · have := (heapDown_perm _ _ _ (by rw [List.length_set])).mem_iff.mp hx2
          rcases List.mem_or_eq_of_mem_set this with hm | hm
          · exact Or.inl hm
          · exact Or.inr hm
        · exact Or.inl hx2
    rcases ih _ x hx with hm | hm
    · rcases hstep hm with h1 | h1
      · exact Or.inl h1
      · exact Or.inr (h1 ▸ List.mem_cons_self c cs)
    · exact Or.inr (List.mem_cons_of_mem c hm)


lemma laCandidates_length (returns : List ℚ) (m : ℕ) :
    (laCandidates returns m).length = returns.length - m := by
  rw [laCandidates, List.length_map, List.length_range']

lemma laScanHeap_length (returns : List ℚ) (m n : ℕ) (hn : 1 ≤ n) :
    (laScanHeap returns m n).length = min n (returns.length - m) := by
  rw [laScanHeap, scanFold_length n hn _ _ (by simp)]
  rw [laCandidates_length]
  simp

lemma laScanHeap_mem (returns : List ℚ) (m n : ℕ) {x : neighbor}
    (hx : x ∈ laScanHeap returns m n) : x ∈ laCandidates returns m := by
  rcases scanFold_mem n _ _ _ hx with h | h
  · exact absurd h (List.not_mem_nil x)
  · exact h

lemma laSelectHeap_ok_inv {returns : List ℚ} {m n : ℕ} {kept : List neighbor}
    (hok : laSelectHeap returns m n = .ok kept) :
    returns.length ≠ 0 ∧ 1 ≤ m ∧ 1 ≤ n ∧ m + 1 ≤ returns.length
    ∧ kept = sortByLess nbLess (popAll (laScanHeap returns m n)) := by
  by_cases h1 : returns.length = 0
  · rw [laSelectHeap, if_pos h1] at hok; exact absurd hok (by simp)
  by_cases h2 : m < 1
  · rw [laSelectHeap, if_neg h1, if_pos h2] at hok; exact absurd hok (by simp)
  by_cases h3 : n < 1
  · rw [laSelectHeap, if_neg h1, if_neg h2, if_pos h3] at hok; exact absurd hok (by simp)
  by_cases h4 : returns.length < m + 1
  · rw [laSelectHeap, if_neg h1, if_neg h2, if_neg h3, if_pos h4] at hok
    exact absurd hok (by simp)
  · rw [laSelectHeap, if_neg h1, if_neg h2, if_neg h3, if_neg h4,
      if_neg (show ¬(returns.length - 1 - 1 < m - 1) by omega),
      if_neg (by rw [laScanHeap_length returns m n (by omega)]; omega)] at hok
    have := Except.ok.inj hok
    exact ⟨h1, by omega, by omega, by omega, this.symm⟩

lemma laSelectHeap_ok_eq {returns : List ℚ} {m n : ℕ} (h1 : returns.length ≠ 0)
    (h2 : 1 ≤ m) (h3 : 1 ≤ n) (h4 : m + 1 ≤ returns.length) :
    laSelectHeap returns m n = .ok (sortByLess nbLess (popAll (laScanHeap returns m n))) := by
  rw [laSelectHeap, if_neg h1, if_neg (by omega), if_neg (by omega), if_neg (by omega),
    if_neg (show ¬(returns.length - 1 - 1 < m - 1) by omega),
    if_neg (by rw [laScanHeap_length returns m n h3]; omega)]

lemma except_error_ne {ε α : Type} {a b : ε} (h : a ≠ b) :
    (Except.error a : Except ε α) ≠ .error b :=
  fun hc => h (Except.error.inj hc)

lemma except_ok_ne_error {ε α : Type} {a : α} {b : ε} :
    (Except.ok a : Except ε α) ≠ .error b :=
  fun hc => Except.noConfusion hc

/-- C3: `LocalApproximation` fails exactly in the degenerate cases, with the
matching error kind — EmptySeries for a length-0 series, InvalidWindow for
`m < 1`, InvalidNeighborCount for `n < 1`, InsufficientData for
`len < m + 1` — InsufficientHistory and NoPatternsFound are never returned
(once `len ≥ m + 1` a candidate window always exists), and every other
input yields a prediction and a minimum distance with no error. -/
theorem la_error_characterization (returns : List ℚ) (m n : ℕ) :
    (LocalApproximation returns m n = .error .emptyPrices ↔ returns.length = 0)
  ∧ (LocalApproximation returns m n = .error .invalidWindowSize ↔
      returns.length ≠ 0 ∧ m < 1)
  ∧ (LocalApproximation returns m n = .error .invalidNeighborsCount ↔
      returns.length ≠ 0 ∧ 1 ≤ m ∧ n < 1)
  ∧ (LocalApproximation returns m n = .error .insufficientData ↔
      returns.length ≠ 0 ∧ 1 ≤ m ∧ 1 ≤ n ∧ returns.length < m + 1)
  ∧ LocalApproximation returns m n ≠ .error .insufficientHistoricalData
  ∧ LocalApproximation returns m n ≠ .error .noPatternsFound
  ∧ (returns.length ≠ 0 → 1 ≤ m → 1 ≤ n → m + 1 ≤ returns.length →
      ∃ pred minDist, LocalApproximation returns m n = .ok (pred, minDist)) := by
  by_cases h1 : returns.length = 0
  · have hres : LocalApproximation returns m n = .error .emptyPrices := by
      rw [LocalApproximation, laSelectHeap, if_pos h1]
    rw [hres]
    exact ⟨iff_of_true rfl h1,
      iff_of_false (except_error_ne (by decide)) (fun h => h.1 h1),
      iff_of_false (except_error_ne (by decide)) (fun h => h.1 h1),
      iff_of_false (except_error_ne (by decide)) (fun h => h.1 h1),
      except_error_ne (by decide), except_error_ne (by decide),
      fun h => absurd h1 h⟩
  by_cases h2 : m < 1
  · have hres : LocalApproximation returns m n = .error .invalidWindowSize := by
      rw [LocalApproximation, laSelectHeap, if_neg h1, if_pos h2]
    rw [hres]
    exact ⟨iff_of_false (except_error_ne (by decide)) h1,
      iff_of_true rfl ⟨h1, h2⟩,
      iff_of_false (except_error_ne (by decide)) (fun h => by omega),
      iff_of_false (except_error_ne (by decide)) (fun h => by omega),
      except_error_ne (by decide), except_error_ne (by decide),
      fun _ hm => by omega⟩
  by_cases h3 : n < 1
  · have hres : LocalApproximation returns m n = .error .invalidNeighborsCount := by
      rw [LocalApproximation, laSelectHeap, if_neg h1, if_neg h2, if_pos h3]
    rw [hres]
    exact ⟨iff_of_false (except_error_ne (by decide)) h1,
      iff_of_false (except_error_ne (by decide)) (fun h => by omega),
      iff_of_true rfl ⟨h1, by omega, h3⟩,
      iff_of_false (except_error_ne (by decide)) (fun h => by omega),
      except_error_ne (by decide), except_error_ne (by decide),
      fun _ _ hn => by omega⟩
  by_cases h4 : returns.length < m + 1
  · have hres : LocalApproximation returns m n = .error .insufficientData := by
      rw [LocalApproximation, laSelectHeap, if_neg h1, if_neg h2, if_neg h3, if_pos h4]
    rw [hres]
    exact ⟨iff_of_false (except_error_ne (by decide)) h1,
      iff_of_false (except_error_ne (by decide)) (fun h => by omega),
      iff_of_false (except_error_ne (by decide)) (fun h => by omega),
      iff_of_true rfl ⟨h1, by omega, by omega, h4⟩,
      except_error_ne (by decide), except_error_ne (by decide),
      fun _ _ _ hd => by omega⟩
  · have hres : LocalApproximation returns m n =
        .ok (laPrediction returns (sortByLess nbLess (popAll (laScanHeap returns m n))),
          Real.sqrt ((minDist2 (sortByLess nbLess (popAll (laScanHeap returns m n))) : ℚ) : ℝ)) := by
      rw [LocalApproximation, laSelectHeap_ok_eq h1 (by omega) (by omega) (by omega)]
    rw [hres]
    exact ⟨iff_of_false except_ok_ne_error h1,
      iff_of_false except_ok_ne_error (fun h => by omega),
      iff_of_false except_ok_ne_error (fun h => by omega),
      iff_of_false except_ok_ne_error (fun h => by omega),
      except_ok_ne_error, except_ok_ne_error,
      fun _ _ _ _ => ⟨_, _, rfl⟩⟩

/-- Witness for `la_error_characterization`: the success case on
`returns = [1, 2, 3]`, `m = 1`, `n = 1`. -/
theorem la_error_characterization_witness :
    ∃ pred minDist, LocalApproximation [1, 2, 3] 1 1 = .ok (pred, minDist) :=
  (la_error_characterization [1, 2, 3] 1 1).2.2.2.2.2.2
    (by norm_num) (by norm_num) (by norm_num) (by norm_num)


lemma mem_laCandidates_position {returns : List ℚ} {m : ℕ} {nb : neighbor}
    (hm : 1 ≤ m) (h : nb ∈ laCandidates returns m) :
    m - 1 ≤ nb.position ∧ nb.position + 2 ≤ returns.length
      ∧ nb.dist2 = ssdAt returns m nb.position := by
  rw [laCandidates] at h
  obtain ⟨i, hi, rfl⟩ := List.mem_map.mp h
  have hr := List.mem_range'_1.mp hi
  dsimp only
  exact ⟨hr.1, by omega, rfl⟩

lemma kept_mem_candidates {returns : List ℚ} {m n : ℕ} {kept : List neighbor}
    (hok : laSelectHeap returns m n = .ok kept) {nb : neighbor} (hnb : nb ∈ kept) :
    nb ∈ laCandidates returns m := by
  obtain ⟨_, _, _, _, hkept⟩ := laSelectHeap_ok_inv hok
  subst hkept
  exact laScanHeap_mem returns m n
    ((popAll_perm _).mem_iff.mp ((sortByLess_perm _ _).mem_iff.mp hnb))

lemma foldl_min_pos {acc : ℚ} (xs : List neighbor) (hacc : 0 < acc)
    (hall : ∀ nb ∈ xs, 0 < nb.dist2) :
    0 < xs.foldl (fun a nb => min a nb.dist2) acc := by
  induction xs generalizing acc with
  | nil => exact hacc
  | cons x t ih =>
    rw [List.foldl_cons]
    exact ih (lt_min hacc (hall x (List.mem_cons_self x t)))
      (fun nb hnb => hall nb (List.mem_cons_of_mem x hnb))

lemma minDist2_pos {l : List neighbor} (hne : l ≠ [])
    (hall : ∀ nb ∈ l, 0 < nb.dist2) : 0 < minDist2 l := by
  cases l with
  | nil => exact absurd rfl hne
  | cons x t =>
    rw [minDist2]
    exact foldl_min_pos t (hall x (List.mem_cons_self x t))
      (fun nb hnb => hall nb (List.mem_cons_of_mem x hnb))

/-- C4: the candidate windows scanned are exactly the length-`m` windows
ending at `i` for `m-1 ≤ i ≤ len-2`; every kept neighbour's position obeys
those bounds, so the target window (ending at `len-1`) is never selected;
and on `returns = [5,6,7,8,9,10,1,2,3]` with `m = 3`, `n = 2` the returned
minimum distance is strictly positive. -/
theorem la_candidates_exclude_target :
    (∀ (returns : List ℚ) (m : ℕ),
      (laCandidates returns m).map (fun nb => nb.position)
        = List.range' (m - 1) (returns.length - m))
  ∧ (∀ (returns : List ℚ) (m n : ℕ) (kept : List neighbor),
      laSelectHeap returns m n = .ok kept → ∀ nb ∈ kept,
        m - 1 ≤ nb.position ∧ nb.position + 2 ≤ returns.length
          ∧ nb.position ≠ returns.length - 1)
  ∧ (∃ pred minDist, LocalApproximation [5, 6, 7, 8, 9, 10, 1, 2, 3] 3 2
        = .ok (pred, minDist) ∧ 0 < minDist) := by
  refine ⟨?_, ?_, ?_⟩
  · intro returns m
    rw [laCandidates, List.map_map]
    exact List.map_id _
  · intro returns m n kept hok nb hnb
    obtain ⟨hne, _, _, hlen, _⟩ := laSelectHeap_ok_inv hok
    obtain ⟨_, hm, _, _, _⟩ := laSelectHeap_ok_inv hok
    obtain ⟨hb1, hb2, _⟩ := mem_laCandidates_position hm (kept_mem_candidates hok hnb)
    exact ⟨hb1, hb2, by omega⟩
  · have hok := @laSelectHeap_ok_eq [5, 6, 7, 8, 9, 10, 1, 2, 3] 3 2
      (by norm_num) (by norm_num) (by norm_num) (by norm_num)
    refine ⟨_, _, by rw [LocalApproximation, hok], ?_⟩
    apply Real.sqrt_pos.mpr
    have hall : ∀ nb ∈ sortByLess nbLess
        (popAll (laScanHeap [5, 6, 7, 8, 9, 10, 1, 2, 3] 3 2)), 0 < nb.dist2 := by
      intro nb hnb
      have hcand := kept_mem_candidates hok hnb
      obtain ⟨hb1, hb2, hd⟩ := mem_laCandidates_position (by norm_num) hcand
      obtain ⟨d2, pos⟩ := nb
      dsimp only at hb1 hb2 hd ⊢
      subst hd
      have hr3 : List.range 3 = [0, 1, 2] := by decide
      have hb2n : pos + 2 ≤ 9 := by simpa using hb2
      have hlow : 2 ≤ pos := by omega
      have hhigh : pos ≤ 7 := by omega
      interval_cases pos <;> norm_num [ssdAt, hr3]
    have hne : sortByLess nbLess (popAll (laScanHeap [5, 6, 7, 8, 9, 10, 1, 2, 3] 3 2)) ≠ [] := by
      have hl : (sortByLess nbLess
          (popAll (laScanHeap [5, 6, 7, 8, 9, 10, 1, 2, 3] 3 2))).length
          = (laScanHeap [5, 6, 7, 8, 9, 10, 1, 2, 3] 3 2).length := by
        rw [(sortByLess_perm _ _).length_eq, (popAll_perm _).length_eq]
      rw [← List.length_pos]
      rw [hl, laScanHeap_length _ _ _ (by norm_num)]
      norm_num
    exact_mod_cast minDist2_pos hne hall


/-- Witness for `la_candidates_exclude_target`: the candidate positions of a
5-return series with window 1 are exactly 0..3. -/
theorem la_candidates_exclude_target_witness :
    (laCandidates [5, -5, 5, 3, 0] 1).map (fun nb => nb.position) = List.range' 0 4 :=
  la_candidates_exclude_target.1 [5, -5, 5, 3, 0] 1

/-! ### C10: the heap-based and the sort-based implementations -/

lemma c10_candidates :
    laCandidates [5, -5, 5, 3, 0] 1 = [⟨25, 0⟩, ⟨25, 1⟩, ⟨25, 2⟩, ⟨9, 3⟩] := by
  have hr : List.range 1 = [0] := by decide
  norm_num [laCandidates, ssdAt, hr, List.range']

lemma c10_scan : laScanHeap [5, -5, 5, 3, 0] 1 2 = [⟨25, 1⟩, ⟨9, 3⟩] := by
  rw [laScanHeap, c10_candidates]
  decide

lemma c10_select_heap : laSelectHeap [5, -5, 5, 3, 0] 1 2 = .ok [⟨9, 3⟩, ⟨25, 1⟩] := by
  rw [laSelectHeap_ok_eq (by norm_num) (by norm_num) (by norm_num) (by norm_num), c10_scan]
  have h : sortByLess nbLess (popAll [⟨25, 1⟩, ⟨9, 3⟩]) = [⟨9, 3⟩, ⟨25, 1⟩] := by decide
  rw [h]

lemma laSelectSort_ok_eq {returns : List ℚ} {m n : ℕ} (h1 : returns.length ≠ 0)
    (h2 : 1 ≤ m) (h3 : 1 ≤ n) (h4 : m + 1 ≤ returns.length) :
    laSelectSort returns m n = .ok ((sortByLess nbLess (laCandidates returns m)).take
        (if (laCandidates returns m).length < n then (laCandidates returns m).length else n)) := by
  rw [laSelectSort, if_neg h1, if_neg (by omega), if_neg (by omega), if_neg (by omega),
    if_neg (show ¬(returns.length - 1 - 1 < m - 1) by omega),
    if_neg (by rw [laCandidates_length]; omega)]

lemma c10_select_sort : laSelectSort [5, -5, 5, 3, 0] 1 2 = .ok [⟨9, 3⟩, ⟨25, 0⟩] := by
  rw [laSelectSort_ok_eq (by norm_num) (by norm_num) (by norm_num) (by norm_num),
    c10_candidates]
  have h : (sortByLess nbLess [(⟨25, 0⟩ : neighbor), ⟨25, 1⟩, ⟨25, 2⟩, ⟨9, 3⟩]).take
      (if ([(⟨25, 0⟩ : neighbor), ⟨25, 1⟩, ⟨25, 2⟩, ⟨9, 3⟩] : List neighbor).length < 2
        then ([(⟨25, 0⟩ : neighbor), ⟨25, 1⟩, ⟨25, 2⟩, ⟨9, 3⟩] : List neighbor).length else 2)
      = [⟨9, 3⟩, ⟨25, 0⟩] := by decide
  rw [h]

/-- Counterexample to C10 as stated: on `returns = [5, -5, 5, 3, 0]` with
`m = 1`, `n = 2`, three candidates are at distance 5 from the target and one
at distance 3.  The heap keeps the first-pushed distance-5 candidate at the
root, so replacing the root keeps the SECOND distance-5 candidate
(position 1, next value 5), while the stable sort keeps the FIRST
(position 0, next value -5).  The two predictions have opposite signs, so
the implementations do not return identical results. -/
theorem la_heap_vs_sort_counterexample :
    LocalApproximation [5, -5, 5, 3, 0] 1 2 ≠ LocalApproximationSort [5, -5, 5, 3, 0] 1 2 := by
  rw [LocalApproximation, c10_select_heap, LocalApproximationSort, c10_select_sort]
  intro h
  have hpred := congrArg Prod.fst (Except.ok.inj h)
  have hg1 : ([5, -5, 5, 3, 0] : List ℚ).getD (3 + 1) 0 = 0 := by decide
  have hg2 : ([5, -5, 5, 3, 0] : List ℚ).getD (1 + 1) 0 = 5 := by decide
  have hg3 : ([5, -5, 5, 3, 0] : List ℚ).getD (0 + 1) 0 = -5 := by decide
  simp only [laPrediction, List.map_cons, List.map_nil, List.sum_cons, List.sum_nil,
    hg1, hg2, hg3] at hpred
  have hw25 : 0 < 1 / (Real.sqrt ((25 : ℚ) : ℝ) + 1 / 10 ^ 10) := by
    have := Real.sqrt_nonneg ((25 : ℚ) : ℝ)
    positivity
  have hw9 : 0 < 1 / (Real.sqrt ((9 : ℚ) : ℝ) + 1 / 10 ^ 10) := by
    have := Real.sqrt_nonneg ((9 : ℚ) : ℝ)
    positivity
  set w9 := 1 / (Real.sqrt ((9 : ℚ) : ℝ) + 1 / 10 ^ 10) with hw9d
  set w25 := 1 / (Real.sqrt ((25 : ℚ) : ℝ) + 1 / 10 ^ 10) with hw25d
  have hsum : 0 < w9 + (w25 + 0) := by positivity
  rw [div_eq_div_iff hsum.ne' hsum.ne'] at hpred
  have h5 : ((5 : ℚ) : ℝ) = 5 := by norm_num
  have hm5 : ((-5 : ℚ) : ℝ) = -5 := by norm_num
  have h0 : ((0 : ℚ) : ℝ) = 0 := by norm_num
  rw [h5, hm5, h0] at hpred
  nlinarith [mul_pos hw25 hsum]

/-! Supporting development for the C10 amendment: the heap-based and the
sort-based selection agree on error kinds and on the minimum distance, and
agree exactly when the candidate distances are pairwise distinct. -/

lemma foldl_min_acc : ∀ (t : List neighbor) (a b : ℚ),
    t.foldl (fun x nb => min x nb.dist2) (min a b)
      = min (t.foldl (fun x nb => min x nb.dist2) a) b := by
  intro t
  induction t with
  | nil => intro a b; rfl
  | cons y t ih =>
    intro a b
    rw [List.foldl_cons, List.foldl_cons, min_right_comm a b y.dist2]
    exact ih (min a y.dist2) b

lemma foldl_min_le_acc : ∀ (t : List neighbor) (a : ℚ),
    t.foldl (fun x nb => min x nb.dist2) a ≤ a := by
  intro t
  induction t with
  | nil => intro a; exact le_refl a
  | cons y t ih =>
    intro a
    rw [List.foldl_cons]
    exact le_trans (ih _) (min_le_left _ _)

lemma foldl_min_le_mem : ∀ (t : List neighbor) (a : ℚ) (x : neighbor), x ∈ t →
    t.foldl (fun x nb => min x nb.dist2) a ≤ x.dist2 := by
  intro t
  induction t with
  | nil => intro a x hx; exact absurd hx (List.not_mem_nil x)
  | cons y t ih =>
    intro a x hx
    rw [List.foldl_cons]
    rcases List.mem_cons.mp hx with rfl | hx
    · exact le_trans (foldl_min_le_acc _ _) (min_le_right _ _)
    · exact ih _ _ hx

lemma foldl_min_cases : ∀ (t : List neighbor) (a : ℚ),
    t.foldl (fun x nb => min x nb.dist2) a = a
      ∨ ∃ x ∈ t, t.foldl (fun x nb => min x nb.dist2) a = x.dist2 := by
  intro t
  induction t with
  | nil => intro a; exact Or.inl rfl
  | cons y t ih =>
    intro a
    rw [List.foldl_cons]
    rcases ih (min a y.dist2) with h | ⟨x, hx, h⟩
    · rcases min_choice a y.dist2 with hm | hm
      · exact Or.inl (by rw [h, hm])
      · exact Or.inr ⟨y, List.mem_cons_self y t, by rw [h, hm]⟩
    · exact Or.inr ⟨x, List.mem_cons_of_mem y hx, h⟩

lemma minDist2_le_mem {l : List neighbor} {x : neighbor} (hx : x ∈ l) :
    minDist2 l ≤ x.dist2 := by
  match l with
  | [] => exact absurd hx (List.not_mem_nil x)
  | y :: t =>
    rw [minDist2]
    rcases List.mem_cons.mp hx with rfl | hx
    · exact foldl_min_le_acc t x.dist2
    · exact foldl_min_le_mem t y.dist2 x hx

lemma minDist2_attained {l : List neighbor} (hne : l ≠ []) :
    ∃ x ∈ l, minDist2 l = x.dist2 := by
  match l with
  | [] => exact absurd rfl hne
  | y :: t =>
    rw [minDist2]
    rcases foldl_min_cases t y.dist2 with h | ⟨x, hx, h⟩
    · exact ⟨y, List.mem_cons_self y t, h⟩
    · exact ⟨x, List.mem_cons_of_mem y hx, h⟩

lemma minDist2_perm {l1 l2 : List neighbor} (hp : l1.Perm l2) :
    minDist2 l1 = minDist2 l2 := by
  by_cases h1 : l1 = []
  · subst h1
    rw [hp.symm.eq_nil]
  · have h2 : l2 ≠ [] := fun hc => h1 (by rw [hc] at hp; exact hp.eq_nil)
    obtain ⟨x, hx, hxe⟩ := minDist2_attained h1
    obtain ⟨y, hy, hye⟩ := minDist2_attained h2
    have hxy := minDist2_le_mem (hp.mem_iff.mp hx)
    have hyx := minDist2_le_mem (hp.mem_iff.mpr hy)
    rw [← hxe] at hxy
    rw [← hye] at hyx
    exact le_antisymm hyx hxy

lemma minDist2_cons_of_le {x : neighbor} {t : List neighbor}
    (h : ∀ y ∈ t, x.dist2 ≤ y.dist2) : minDist2 (x :: t) = x.dist2 := by
  apply le_antisymm (minDist2_le_mem (List.mem_cons_self x t))
  obtain ⟨y, hy, hye⟩ := minDist2_attained (show x :: t ≠ [] by simp)
  rw [hye]
  rcases List.mem_cons.mp hy with rfl | hy
  · exact le_refl _
  · exact h y hy

lemma minDist2_append_singleton {h : List neighbor} (hne : h ≠ []) (c : neighbor) :
    minDist2 (h ++ [c]) = min (minDist2 h) c.dist2 := by
  match h with
  | [] => exact absurd rfl hne
  | x :: t =>
    rw [List.cons_append, minDist2, minDist2, List.foldl_append]
    rfl

lemma laScanStep_ne_nil {n : ℕ} {h : List neighbor} (hne : h ≠ []) (c : neighbor) :
    laScanStep n h c ≠ [] := by
  have hl : h.length ≠ 0 := fun hc => hne (List.length_eq_zero.mp hc)
  have hlen : (laScanStep n h c).length ≠ 0 := by
    rw [laScanStep]
    split
    · rw [heapPush_length]; omega
    · split
      · rw [heapDown_length, List.length_set]; exact hl
      · exact hl
  exact fun hc => hlen (by rw [hc]; rfl)

lemma scanStep_minDist2 {n : ℕ} {h : List neighbor} (hne : h ≠ []) (c : neighbor) :
    minDist2 (laScanStep n h c) = min (minDist2 h) c.dist2 := by
  rw [laScanStep]
  by_cases hlt : h.length < n
  · rw [if_pos hlt, minDist2_perm (heapPush_perm h c), minDist2_append_singleton hne]
  · rw [if_neg hlt]
    match h with
    | x :: t =>
      have hset : (x :: t).set 0 c = c :: t := rfl
      by_cases hrep : c.dist2 < ((x :: t).getD 0 nbDefault).dist2
      · rw [if_pos hrep,
          minDist2_perm (heapDown_perm _ 0 _ (by rw [List.length_set])), hset]
        rw [minDist2, minDist2, ← foldl_min_acc]
        have hx : ((x :: t).getD 0 nbDefault).dist2 = x.dist2 := rfl
        rw [hx] at hrep
        rw [min_eq_right hrep.le]
      · rw [if_neg hrep]
        have hx : ((x :: t).getD 0 nbDefault).dist2 = x.dist2 := rfl
        rw [hx] at hrep
        refine (min_eq_left ?_).symm
        exact le_trans (minDist2_le_mem (List.mem_cons_self x t)) (not_lt.mp hrep)

lemma scanFold_minDist2 {n : ℕ} : ∀ (cs : List neighbor) (h : List neighbor), h ≠ [] →
    minDist2 (cs.foldl (laScanStep n) h)
      = cs.foldl (fun a nb => min a nb.dist2) (minDist2 h) := by
  intro cs
  induction cs with
  | nil => intro h _; rfl
  | cons c cs ih =>
    intro h hne
    rw [List.foldl_cons, List.foldl_cons, ih _ (laScanStep_ne_nil hne c),
      scanStep_minDist2 hne c]

lemma laScanHeap_minDist2 (returns : List ℚ) (m n : ℕ) (hn : 1 ≤ n)
    (hcs : laCandidates returns m ≠ []) :
    minDist2 (laScanHeap returns m n) = minDist2 (laCandidates returns m) := by
  obtain ⟨c0, rest, hc⟩ := List.exists_cons_of_ne_nil hcs
  rw [laScanHeap, hc, List.foldl_cons]
  have hstep : laScanStep n [] c0 = [c0] := by
    rw [laScanStep, if_pos (by simpa using hn)]
    rfl
  rw [hstep, scanFold_minDist2 rest [c0] (by simp)]
  rfl

lemma insertLess_sorted {a : neighbor} {l : List neighbor}
    (hl : l.Pairwise (fun x y => x.dist2 ≤ y.dist2)) :
    (insertLess nbLess a l).Pairwise (fun x y => x.dist2 ≤ y.dist2) := by
  induction l with
  | nil => exact List.pairwise_singleton _ a
  | cons b t ih =>
    rw [insertLess]
    rcases List.pairwise_cons.mp hl with ⟨hb, ht⟩
    by_cases hba : b.dist2 < a.dist2
    · rw [if_pos (by rw [nbLess]; exact decide_eq_true hba)]
      rw [List.pairwise_cons]
      refine ⟨fun x hx => ?_, ih ht⟩
      rcases List.mem_cons.mp ((insertLess_perm nbLess a t).mem_iff.mp hx) with rfl | hx3
      · exact hba.le
      · exact hb x hx3
    · rw [if_neg (by rw [nbLess]; exact fun hc => hba (of_decide_eq_true hc))]
      rw [List.pairwise_cons]
      refine ⟨fun x hx => ?_, hl⟩
      rcases List.mem_cons.mp hx with rfl | hx3
      · exact not_lt.mp hba
      · exact le_trans (not_lt.mp hba) (hb x hx3)

lemma sortByLess_sorted : ∀ (l : List neighbor),
    (sortByLess nbLess l).Pairwise (fun x y => x.dist2 ≤ y.dist2) := by
  intro l
  induction l with
  | nil => exact List.Pairwise.nil
  | cons a l ih =>
    rw [sortByLess]
    exact insertLess_sorted ih

lemma minDist2_take_sorted {s : List neighbor}
    (hs : s.Pairwise (fun x y => x.dist2 ≤ y.dist2)) (hne : s ≠ []) {k : ℕ} (hk : 1 ≤ k) :
    minDist2 (s.take k) = minDist2 s := by
  match s with
  | [] => exact absurd rfl hne
  | x :: t =>
    obtain ⟨k, rfl⟩ : ∃ j, k = j + 1 := ⟨k - 1, by omega⟩
    rw [List.take_succ_cons]
    rcases List.pairwise_cons.mp hs with ⟨hx, _⟩
    rw [minDist2_cons_of_le (fun y hy => hx y (List.take_subset k t hy)),
      minDist2_cons_of_le hx]

lemma laCandidates_ne_nil {returns : List ℚ} {m : ℕ}
    (h4 : m + 1 ≤ returns.length) : laCandidates returns m ≠ [] := by
  intro hc
  have hl := laCandidates_length returns m
  rw [hc] at hl
  simp only [List.length_nil] at hl
  omega

lemma la_min_eq {returns : List ℚ} {m n : ℕ} {kh ks : List neighbor}
    (hh : laSelectHeap returns m n = .ok kh) (hs : laSelectSort returns m n = .ok ks) :
    minDist2 kh = minDist2 ks := by
  obtain ⟨h1, h2, h3, h4, hkh⟩ := laSelectHeap_ok_inv hh
  rw [laSelectSort_ok_eq h1 h2 h3 h4] at hs
  have hks := Except.ok.inj hs
  have hcne : laCandidates returns m ≠ [] := laCandidates_ne_nil h4
  have hclen : 1 ≤ (laCandidates returns m).length := List.length_pos.mpr hcne
  have hsne : sortByLess nbLess (laCandidates returns m) ≠ [] :=
    fun hc => hcne ((sortByLess_perm nbLess (laCandidates returns m)).symm.trans
      (hc ▸ List.Perm.refl _)).eq_nil
  rw [hkh, ← hks]
  rw [minDist2_perm ((sortByLess_perm _ _).trans (popAll_perm _)),
    laScanHeap_minDist2 returns m n h3 hcne,
    minDist2_take_sorted (sortByLess_sorted _) hsne (by split <;> omega),
    minDist2_perm (sortByLess_perm _ _)]

lemma la_error_iff (returns : List ℚ) (m n : ℕ) (e : LAError) :
    LocalApproximation returns m n = .error e ↔
      LocalApproximationSort returns m n = .error e := by
  by_cases h1 : returns.length = 0
  · rw [LocalApproximation, LocalApproximationSort, laSelectHeap, laSelectSort,
      if_pos h1, if_pos h1]
  by_cases h2 : m < 1
  · rw [LocalApproximation, LocalApproximationSort, laSelectHeap, laSelectSort,
      if_neg h1, if_neg h1, if_pos h2, if_pos h2]
  by_cases h3 : n < 1
  · rw [LocalApproximation, LocalApproximationSort, laSelectHeap, laSelectSort,
      if_neg h1, if_neg h1, if_neg h2, if_neg h2, if_pos h3, if_pos h3]
  by_cases h4 : returns.length < m + 1
  · rw [LocalApproximation, LocalApproximationSort, laSelectHeap, laSelectSort,
      if_neg h1, if_neg h1, if_neg h2, if_neg h2, if_neg h3, if_neg h3, if_pos h4, if_pos h4]
  · rw [LocalApproximation, LocalApproximationSort,
      laSelectHeap_ok_eq h1 (by omega) (by omega) (by omega),
      laSelectSort_ok_eq h1 (by omega) (by omega) (by omega)]
    exact iff_of_false except_ok_ne_error except_ok_ne_error

/-- The max-heap order of `container/heap` restricted to the first `n`
slots: every non-root slot is at most its parent. -/
def heapOrdN (l : List neighbor) (n : ℕ) : Prop :=
  ∀ j, 0 < j → j < n →
    (l.getD j nbDefault).dist2 ≤ (l.getD ((j - 1) / 2) nbDefault).dist2

lemma heapOrdN_le_root {l : List neighbor} {n : ℕ} (h : heapOrdN l n) :
    ∀ k, k < n → (l.getD k nbDefault).dist2 ≤ (l.getD 0 nbDefault).dist2 := by
  intro k
  induction k using Nat.strong_induction_on with
  | _ k ih =>
    intro hk
    by_cases hk0 : k = 0
    · subst hk0
      exact le_refl _
    · exact le_trans (h k (by omega) hk) (ih ((k - 1) / 2) (by omega) (by omega))

lemma mem_getD_of_mem {l : List neighbor} {x : neighbor} (hx : x ∈ l) :
    ∃ k, k < l.length ∧ l.getD k nbDefault = x := by
  obtain ⟨k, hk, he⟩ := List.mem_iff_getElem.mp hx
  refine ⟨k, hk, ?_⟩
  rw [List.getD_eq_getElem?_getD, List.getElem?_eq_getElem hk, Option.getD_some]
  exact he

lemma getD_append_left {l l2 : List neighbor} {k : ℕ} (hk : k < l.length) :
    (l ++ l2).getD k nbDefault = l.getD k nbDefault := by
  rw [List.getD_eq_getElem?_getD, List.getD_eq_getElem?_getD, List.getElem?_append,
    if_pos hk]

lemma heapUpGo_ord (fuel : ℕ) : ∀ (l : List neighbor) (j : ℕ), j < l.length → j < fuel →
    (∀ k, 0 < k → k < l.length → k ≠ j →
      (l.getD k nbDefault).dist2 ≤ (l.getD ((k - 1) / 2) nbDefault).dist2) →
    (∀ k, 0 < j → 0 < k → k < l.length → (k - 1) / 2 = j →
      (l.getD k nbDefault).dist2 ≤ (l.getD ((j - 1) / 2) nbDefault).dist2) →
    heapOrdN (heapUpGo fuel l j) l.length := by
  induction fuel with
  | zero =>
    intro l j hj hfuel _ _
    exact absurd hfuel (by omega)
  | succ fuel ih =>
    intro l j hjl hjf hi hii
    rw [heapUpGo]
    by_cases hj0 : j = 0
    · rw [if_pos hj0]
      subst hj0
      intro k hk0 hkl
      exact hi k hk0 hkl (by omega)
    · rw [if_neg hj0]
      set i := (j - 1) / 2 with hidef
      have hij : i < j := by omega
      by_cases hswap : (l.getD i nbDefault).dist2 < (l.getD j nbDefault).dist2
      · rw [if_pos hswap]
        have hil : i < l.length := by omega
        have hlen : (listSwap l i j nbDefault).length = l.length :=
          listSwap_length l i j nbDefault
        have hget := fun k => getD_listSwap hil hjl k
        rw [show l.length = (listSwap l i j nbDefault).length from hlen.symm]
        apply ih (listSwap l i j nbDefault) i (by omega) (by omega)
        · intro k hk0 hkl hki
          rw [hlen] at hkl
          rw [hget k, hget ((k - 1) / 2)]
          by_cases hkj : k = j
          · subst hkj
            rw [if_pos rfl, if_neg (show (k - 1) / 2 ≠ k by omega), if_pos hidef.symm]
            exact hswap.le
          · by_cases hpj : (k - 1) / 2 = j
            · rw [if_neg hkj, if_neg (show k ≠ i by omega), if_pos hpj]
              exact hii k (by omega) hk0 hkl hpj
            · by_cases hpi : (k - 1) / 2 = i
              · rw [if_neg hkj, if_neg hki, if_neg hpj, if_pos hpi]
                refine le_trans ?_ hswap.le
                have := hi k hk0 hkl hkj
                rw [hpi] at this
                exact this
              · rw [if_neg hkj, if_neg hki, if_neg hpj, if_neg hpi]
                exact hi k hk0 hkl hkj
        · intro k hi0 hk0 hkl hpk
          rw [hlen] at hkl
          rw [hget k, hget ((i - 1) / 2)]
          rw [if_neg (show (i - 1) / 2 ≠ j by omega), if_neg (show (i - 1) / 2 ≠ i by omega)]
          by_cases hkj : k = j
          · subst hkj
            rw [if_pos rfl]
            exact hi i hi0 (by omega) (by omega)
          · rw [if_neg hkj, if_neg (show k ≠ i by omega)]
            have h1 : (l.getD k nbDefault).dist2 ≤ (l.getD i nbDefault).dist2 := by
              have := hi k hk0 hkl hkj
              rw [hpk] at this
              exact this
            exact le_trans h1 (hi i hi0 (by omega) (by omega))
      · rw [if_neg hswap]
        intro k hk0 hkl
        by_cases hkj : k = j
        · subst hkj
          exact not_lt.mp hswap
        · exact hi k hk0 hkl hkj

lemma heapPush_ord {l : List neighbor} (h : heapOrdN l l.length) (c : neighbor) :
    heapOrdN (heapPush l c) (heapPush l c).length := by
  rw [heapPush, heapUp, heapUpGo_length]
  have hlen : (l ++ [c]).length = l.length + 1 := by simp
  apply heapUpGo_ord (l.length + 1) (l ++ [c]) l.length (by simp) (by omega)
  · intro k hk0 hkl hkj
    rw [hlen] at hkl
    have hkl2 : k < l.length := by omega
    rw [getD_append_left hkl2, getD_append_left (show (k - 1) / 2 < l.length by omega)]
    exact h k hk0 hkl2
  · intro k hj0 hk0 hkl hpk
    rw [hlen] at hkl
    exact absurd hpk (by omega)

lemma heapDownGo_ord (fuel : ℕ) : ∀ (l : List neighbor) (i n : ℕ), n ≤ l.length →
    n - i ≤ fuel →
    (∀ k, 0 < k → k < n → (k - 1) / 2 ≠ i →
      (l.getD k nbDefault).dist2 ≤ (l.getD ((k - 1) / 2) nbDefault).dist2) →
    (∀ k, 0 < i → 0 < k → k < n → (k - 1) / 2 = i →
      (l.getD k nbDefault).dist2 ≤ (l.getD ((i - 1) / 2) nbDefault).dist2) →
    heapOrdN (heapDownGo fuel l i n) n := by
  induction fuel with
  | zero =>
    intro l i n hn hfuel hi hii
    intro k hk0 hkn
    exact hi k hk0 hkn (by omega)
  | succ fuel ih =>
    intro l i n hn hfuel hi hii
    rw [heapDownGo]
    by_cases hguard : n ≤ 2 * i + 1
    · rw [if_pos hguard]
      intro k hk0 hkn
      exact hi k hk0 hkn (by omega)
    · rw [if_neg hguard]
      set j := downChild l i n with hjdef
      have hjb : i < j ∧ j < n := downChild_bounds l (by omega)
      have hpj : (j - 1) / 2 = i := by
        rw [hjdef, downChild]
        split <;> omega
      have hsib : ∀ k, 0 < k → k < n → (k - 1) / 2 = i →
          (l.getD k nbDefault).dist2 ≤ (l.getD j nbDefault).dist2 := by
        intro k hk0 hkn hpk
        rcases (show k = 2 * i + 1 ∨ k = 2 * i + 2 by omega) with rfl | rfl
        · rw [hjdef, downChild]
          by_cases hcond : 2 * i + 2 < n ∧
              (l.getD (2 * i + 1) nbDefault).dist2 < (l.getD (2 * i + 2) nbDefault).dist2
          · rw [if_pos hcond]
            exact hcond.2.le
          · rw [if_neg hcond]
        · rw [hjdef, downChild]
          by_cases hcond : 2 * i + 2 < n ∧
              (l.getD (2 * i + 1) nbDefault).dist2 < (l.getD (2 * i + 2) nbDefault).dist2
          · rw [if_pos hcond]
          · rw [if_neg hcond]
            push_neg at hcond
            exact hcond hkn
      by_cases hswap : (l.getD i nbDefault).dist2 < (l.getD j nbDefault).dist2
      · rw [if_pos hswap]
        have hjl : j < l.length := by omega
        have hil : i < l.length := by omega
        have hget := fun k => getD_listSwap hil hjl k
        apply ih (listSwap l i j nbDefault) j n (by rw [listSwap_length]; omega) (by omega)
        · intro k hk0 hkn hpkj
          rw [hget k, hget ((k - 1) / 2)]
          by_cases hkj : k = j
          · rw [if_pos hkj, if_neg hpkj, if_pos (by rw [hkj]; exact hpj)]
            exact hswap.le
          · by_cases hpki : (k - 1) / 2 = i
            · rw [if_neg hkj, if_neg (show k ≠ i by omega), if_neg hpkj, if_pos hpki]
              exact hsib k hk0 hkn hpki
            · by_cases hki : k = i
              · rw [if_neg hkj, if_pos hki, if_neg hpkj, if_neg hpki]
                have := hii j (by omega) (by omega) hjb.2 hpj
                rw [hki]
                exact this
              · rw [if_neg hkj, if_neg hki, if_neg hpkj, if_neg hpki]
                exact hi k hk0 hkn hpki
        · intro k hj0 hk0 hkn hpkj2
          rw [hget k, hget ((j - 1) / 2)]
          rw [if_neg (show k ≠ j by omega), if_neg (show k ≠ i by omega)]
          rw [if_neg (show (j - 1) / 2 ≠ j by omega), if_pos hpj]
          have := hi k hk0 hkn (by omega)
          rw [hpkj2] at this
          exact this
      · rw [if_neg hswap]
        intro k hk0 hkn
        by_cases hpki : (k - 1) / 2 = i
        · have h1 := hsib k hk0 hkn hpki
          have h2 := not_lt.mp hswap
          rw [hpki]
          exact le_trans h1 h2
        · exact hi k hk0 hkn hpki

lemma scanStep_ord (n : ℕ) {h : List neighbor} (hord : heapOrdN h h.length) (c : neighbor) :
    heapOrdN (laScanStep n h c) (laScanStep n h c).length := by
  rw [laScanStep]
  by_cases hlt : h.length < n
  · rw [if_pos hlt]
    exact heapPush_ord hord c
  · rw [if_neg hlt]
    by_cases hrep : c.dist2 < (h.getD 0 nbDefault).dist2
    · rw [if_pos hrep]
      rw [heapDown_length, List.length_set, heapDown]
      apply heapDownGo_ord (h.length - 0) (h.set 0 c) 0 h.length
        (by rw [List.length_set]) (by omega)
      · intro k hk0 hkn hpk
        rw [getD_set_ne_of (show k ≠ 0 by omega), getD_set_ne_of hpk]
        exact hord k hk0 hkn
      · intro k h00 _ _ _
        exact absurd h00 (by omega)
    · rw [if_neg hrep]
      exact hord

lemma sorted_take_of_split : ∀ (s A B : List neighbor),
    s.Pairwise (fun x y => x.dist2 < y.dist2) →
    s.Perm (A ++ B) → (∀ x ∈ A, ∀ y ∈ B, x.dist2 < y.dist2) →
    (s.take A.length).Perm A := by
  intro s
  induction s with
  | nil =>
    intro A B _ hp _
    have hA : A = [] := (List.append_eq_nil.mp hp.symm.eq_nil).1
    rw [hA]
    exact List.Perm.nil
  | cons x s ih =>
    intro A B hs hp hsep
    cases A with
    | nil => exact List.Perm.nil
    | cons a A2 =>
      have hxA : x ∈ a :: A2 := by
        rcases List.mem_append.mp (hp.mem_iff.mp (List.mem_cons_self x s)) with h | h
        · exact h
        · exfalso
          have haA : a ∈ a :: A2 := List.mem_cons_self a A2
          have hax : a.dist2 < x.dist2 := hsep a haA x h
          rcases List.mem_cons.mp (hp.mem_iff.mpr
              (List.mem_append.mpr (Or.inl haA))) with h2 | h2
          · rw [h2] at hax
            exact lt_irrefl _ hax
          · exact lt_asymm hax ((List.pairwise_cons.mp hs).1 a h2)
      have h1 : (a :: A2).Perm (x :: (a :: A2).erase x) := List.perm_cons_erase hxA
      have hperm2 : s.Perm ((a :: A2).erase x ++ B) := by
        have h2 : (x :: s).Perm (x :: ((a :: A2).erase x ++ B)) :=
          hp.trans (h1.append_right B)
        exact h2.cons_inv
      have ihh := ih ((a :: A2).erase x) B (List.pairwise_cons.mp hs).2 hperm2
        (fun u hu v hv => hsep u (List.erase_subset _ _ hu) v hv)
      have hlen_erase : ((a :: A2).erase x).length = A2.length := by
        rw [List.length_erase_of_mem hxA]
        rfl
      rw [hlen_erase] at ihh
      show (x :: s.take A2.length).Perm (a :: A2)
      exact (ihh.cons x).trans h1.symm

lemma scanSel (n : ℕ) (hn : 1 ≤ n) :
    ∀ (cs pre h rest : List neighbor),
    (pre ++ cs).Pairwise (fun a b => a.dist2 ≠ b.dist2) →
    pre.Perm (h ++ rest) →
    (∀ x ∈ h, ∀ y ∈ rest, x.dist2 < y.dist2) →
    h.length = min n pre.length →
    heapOrdN h h.length →
    ∃ rest2, (pre ++ cs).Perm (cs.foldl (laScanStep n) h ++ rest2)
      ∧ (∀ x ∈ cs.foldl (laScanStep n) h, ∀ y ∈ rest2, x.dist2 < y.dist2)
      ∧ (cs.foldl (laScanStep n) h).length = min n (pre ++ cs).length
      ∧ heapOrdN (cs.foldl (laScanStep n) h) (cs.foldl (laScanStep n) h).length := by
  intro cs
  induction cs with
  | nil =>
    intro pre h rest hd hp hsep hlen hord
    rw [List.append_nil]
    exact ⟨rest, hp, hsep, hlen, hord⟩
  | cons c cs ih =>
    intro pre h rest hd hp hsep hlen hord
    have hassoc : pre ++ c :: cs = (pre ++ [c]) ++ cs := by simp
    have hd' : ((pre ++ [c]) ++ cs).Pairwise (fun a b => a.dist2 ≠ b.dist2) := hassoc ▸ hd
    rw [List.foldl_cons]
    by_cases hlt : h.length < n
    · -- push: the heap is not yet full, so nothing has been discarded
      have hrest : rest = [] := by
        have hl := hp.length_eq
        rw [List.length_append] at hl
        have hr0 : rest.length = 0 := by omega
        exact List.length_eq_zero.mp hr0
      subst hrest
      rw [List.append_nil] at hp
      have hstep : laScanStep n h c = heapPush h c := by rw [laScanStep, if_pos hlt]
      rw [hstep]
      have hperm' : (pre ++ [c]).Perm (heapPush h c ++ []) := by
        rw [List.append_nil]
        exact (hp.append_right [c]).trans (heapPush_perm h c).symm
      have hlen'' : (heapPush h c).length = min n ((pre ++ [c]).length) := by
        rw [heapPush_length, List.length_append, List.length_singleton]
        have := hp.length_eq
        omega
      obtain ⟨rest2, hA, hB, hC, hD⟩ := ih (pre ++ [c]) (heapPush h c) [] hd' hperm'
        (fun x _ y hy => absurd hy (List.not_mem_nil y)) hlen'' (heapPush_ord hord c)
      refine ⟨rest2, ?_, hB, ?_, hD⟩
      · rw [hassoc]
        exact hA
      · rw [hassoc]
        exact hC
    · -- the heap is full
      have hne : h ≠ [] := by
        intro hc
        rw [hc] at hlt
        simp at hlt
        omega
      obtain ⟨h0, t, rfl⟩ := List.exists_cons_of_ne_nil hne
      have hdsplit := List.pairwise_append.mp hd
      have hhr : ((h0 :: t) ++ rest).Pairwise (fun a b => a.dist2 ≠ b.dist2) := by
        refine (List.Perm.pairwise_iff ?_ hp).mp hdsplit.1
        intro x y hxy
        exact Ne.symm hxy
      have hht : (h0 :: t).Pairwise (fun a b => a.dist2 ≠ b.dist2) :=
        (List.pairwise_append.mp hhr).1
      have hroot : ∀ x ∈ h0 :: t, x.dist2 ≤ h0.dist2 := by
        intro x hx
        obtain ⟨k, hk, hke⟩ := mem_getD_of_mem hx
        have := heapOrdN_le_root hord k hk
        rw [hke] at this
        exact this
      by_cases hrep : c.dist2 < ((h0 :: t).getD 0 nbDefault).dist2
      · -- replace the root
        have hrep' : c.dist2 < h0.dist2 := hrep
        have hstep : laScanStep n (h0 :: t) c
            = heapDown ((h0 :: t).set 0 c) 0 (h0 :: t).length := by
          rw [laScanStep, if_neg hlt, if_pos hrep]
        have hord' : heapOrdN (heapDown ((h0 :: t).set 0 c) 0 (h0 :: t).length)
            (heapDown ((h0 :: t).set 0 c) 0 (h0 :: t).length).length := by
          have := scanStep_ord n hord c
          rw [hstep] at this
          exact this
        rw [hstep]
        have hpd : (heapDown ((h0 :: t).set 0 c) 0 (h0 :: t).length).Perm (c :: t) := by
          have := heapDown_perm ((h0 :: t).set 0 c) 0 (h0 :: t).length
            (by rw [List.length_set])
          rw [show (h0 :: t).set 0 c = c :: t from rfl] at this
          exact this
        have hperm' : (pre ++ [c]).Perm
            (heapDown ((h0 :: t).set 0 c) 0 (h0 :: t).length ++ (h0 :: rest)) := by
          have e1 : (pre ++ [c]).Perm (c :: (h0 :: (t ++ rest))) :=
            (hp.append_right [c]).trans List.perm_append_comm
          have e2 : (heapDown ((h0 :: t).set 0 c) 0 (h0 :: t).length
              ++ (h0 :: rest)).Perm (c :: (h0 :: (t ++ rest))) :=
            (hpd.append_right (h0 :: rest)).trans (List.Perm.cons c List.perm_middle)
          exact e1.trans e2.symm
        have hsep' : ∀ x ∈ heapDown ((h0 :: t).set 0 c) 0 (h0 :: t).length,
            ∀ y ∈ h0 :: rest, x.dist2 < y.dist2 := by
          intro x hx y hy
          have hx2 := hpd.mem_iff.mp hx
          rcases List.mem_cons.mp hy with hy1 | hy2
          · rw [hy1]
            rcases List.mem_cons.mp hx2 with hx1 | hx3
            · rw [hx1]
              exact hrep'
            · refine lt_of_le_of_ne (hroot x (List.mem_cons_of_mem h0 hx3)) ?_
              exact Ne.symm ((List.pairwise_cons.mp hht).1 x hx3)
          · rcases List.mem_cons.mp hx2 with hx1 | hx3
            · rw [hx1]
              exact lt_trans hrep' (hsep h0 (List.mem_cons_self h0 t) y hy2)
            · exact hsep x (List.mem_cons_of_mem h0 hx3) y hy2
        have hlen'' : (heapDown ((h0 :: t).set 0 c) 0 (h0 :: t).length).length
            = min n ((pre ++ [c]).length) := by
          rw [heapDown_length, List.length_set, List.length_append, List.length_singleton]
          have := hp.length_eq
          rw [List.length_append] at this
          omega
        obtain ⟨rest2, hA, hB, hC, hD⟩ := ih (pre ++ [c]) _ (h0 :: rest) hd' hperm'
          hsep' hlen'' hord'
        refine ⟨rest2, ?_, hB, ?_, hD⟩
        · rw [hassoc]
          exact hA
        · rw [hassoc]
          exact hC
      · -- skip the candidate
        have hstep : laScanStep n (h0 :: t) c = h0 :: t := by
          rw [laScanStep, if_neg hlt, if_neg hrep]
        rw [hstep]
        have hch0 : h0.dist2 < c.dist2 := by
          have hle : h0.dist2 ≤ c.dist2 := not_lt.mp hrep
          have hh0pre : h0 ∈ pre :=
            hp.mem_iff.mpr (List.mem_append.mpr (Or.inl (List.mem_cons_self h0 t)))
          exact lt_of_le_of_ne hle
            (hdsplit.2.2 h0 hh0pre c (List.mem_cons_self c cs))
        have hperm' : (pre ++ [c]).Perm ((h0 :: t) ++ (c :: rest)) := by
          have e1 : (pre ++ [c]).Perm ((h0 :: t) ++ (rest ++ [c])) := by
            have := hp.append_right [c]
            rw [List.append_assoc] at this
            exact this
          exact e1.trans (List.Perm.append_left (h0 :: t)
            (List.perm_append_singleton c rest))
        have hsep' : ∀ x ∈ h0 :: t, ∀ y ∈ c :: rest, x.dist2 < y.dist2 := by
          intro x hx y hy
          rcases List.mem_cons.mp hy with hy1 | hy2
          · rw [hy1]
            exact lt_of_le_of_lt (hroot x hx) hch0
          · exact hsep x hx y hy2
        have hlen'' : (h0 :: t).length = min n ((pre ++ [c]).length) := by
          rw [List.length_append, List.length_singleton]
          have := hp.length_eq
          rw [List.length_append] at this
          omega
        obtain ⟨rest2, hA, hB, hC, hD⟩ := ih (pre ++ [c]) (h0 :: t) (c :: rest) hd' hperm'
          hsep' hlen'' hord
        refine ⟨rest2, ?_, hB, ?_, hD⟩
        · rw [hassoc]
          exact hA
        · rw [hassoc]
          exact hC

lemma la_kept_eq_of_distinct {returns : List ℚ} {m n : ℕ} (h3 : 1 ≤ n)
    (hd : ((laCandidates returns m).map neighbor.dist2).Nodup) :
    sortByLess nbLess (popAll (laScanHeap returns m n))
      = (sortByLess nbLess (laCandidates returns m)).take
          (if (laCandidates returns m).length < n then (laCandidates returns m).length
            else n) := by
  have hdp : (laCandidates returns m).Pairwise (fun a b => a.dist2 ≠ b.dist2) :=
    List.pairwise_map.mp hd
  obtain ⟨rest2, hA, hB, hC, hD⟩ := scanSel n h3 (laCandidates returns m) [] [] []
    (by simpa using hdp) (List.Perm.refl []) (fun x hx => absurd hx (List.not_mem_nil x))
    (by simp) (fun j _ hj => absurd hj (by simp))
  have hscan : (laCandidates returns m).foldl (laScanStep n) [] = laScanHeap returns m n :=
    rfl
  rw [hscan] at hA hB hC hD
  have hcandperm : (laCandidates returns m).Perm (laScanHeap returns m n ++ rest2) := by
    simpa using hA
  have hlen_scan : (laScanHeap returns m n).length = min n (laCandidates returns m).length := by
    simpa using hC
  have hs_perm : (sortByLess nbLess (laCandidates returns m)).Perm (laCandidates returns m) :=
    sortByLess_perm nbLess (laCandidates returns m)
  have hs_ne : (sortByLess nbLess (laCandidates returns m)).Pairwise
      (fun a b => a.dist2 ≠ b.dist2) := by
    refine (List.Perm.pairwise_iff ?_ hs_perm).mpr hdp
    intro x y hxy
    exact Ne.symm hxy
  have hs_lt : (sortByLess nbLess (laCandidates returns m)).Pairwise
      (fun a b => a.dist2 < b.dist2) := by
    have hand := (sortByLess_sorted (laCandidates returns m)).and hs_ne
    exact hand.imp (fun h => lt_of_le_of_ne h.1 h.2)
  have htake := sorted_take_of_split (sortByLess nbLess (laCandidates returns m))
    (laScanHeap returns m n) rest2 hs_lt (hs_perm.trans hcandperm) hB
  have hkh_perm : (sortByLess nbLess (popAll (laScanHeap returns m n))).Perm
      (laScanHeap returns m n) :=
    (sortByLess_perm _ _).trans (popAll_perm _)
  have hscan_ne : (laScanHeap returns m n).Pairwise (fun a b => a.dist2 ≠ b.dist2) := by
    have hall : (laScanHeap returns m n ++ rest2).Pairwise (fun a b => a.dist2 ≠ b.dist2) := by
      refine (List.Perm.pairwise_iff ?_ hcandperm).mp hdp
      intro x y hxy
      exact Ne.symm hxy
    exact (List.pairwise_append.mp hall).1
  have hkh_ne : (sortByLess nbLess (popAll (laScanHeap returns m n))).Pairwise
      (fun a b => a.dist2 ≠ b.dist2) := by
    refine (List.Perm.pairwise_iff ?_ hkh_perm).mpr hscan_ne
    intro x y hxy
    exact Ne.symm hxy
  have hkh_lt : (sortByLess nbLess (popAll (laScanHeap returns m n))).Pairwise
      (fun a b => a.dist2 < b.dist2) := by
    have hand := (sortByLess_sorted (popAll (laScanHeap returns m n))).and hkh_ne
    exact hand.imp (fun h => lt_of_le_of_ne h.1 h.2)
  have hk : (if (laCandidates returns m).length < n then (laCandidates returns m).length
      else n) = (laScanHeap returns m n).length := by
    rw [hlen_scan]
    split <;> omega
  rw [hk]
  have htk_lt : ((sortByLess nbLess (laCandidates returns m)).take
      (laScanHeap returns m n).length).Pairwise (fun a b => a.dist2 < b.dist2) :=
    List.Pairwise.sublist (List.take_sublist _ _) hs_lt
  haveI : IsAntisymm neighbor (fun a b : neighbor => a.dist2 < b.dist2) :=
    ⟨fun a b hab hba => absurd hba (lt_asymm hab)⟩
  exact List.eq_of_perm_of_sorted (hkh_perm.trans htake.symm) hkh_lt htk_lt

lemma la_eq_of_distinct (returns : List ℚ) (m n : ℕ)
    (hd : ((laCandidates returns m).map neighbor.dist2).Nodup) :
    LocalApproximation returns m n = LocalApproximationSort returns m n := by
  by_cases h1 : returns.length = 0
  · rw [LocalApproximation, LocalApproximationSort, laSelectHeap, laSelectSort,
      if_pos h1, if_pos h1]
  by_cases h2 : m < 1
  · rw [LocalApproximation, LocalApproximationSort, laSelectHeap, laSelectSort,
      if_neg h1, if_neg h1, if_pos h2, if_pos h2]
  by_cases h3 : n < 1
  · rw [LocalApproximation, LocalApproximationSort, laSelectHeap, laSelectSort,
      if_neg h1, if_neg h1, if_neg h2, if_neg h2, if_pos h3, if_pos h3]
  by_cases h4 : returns.length < m + 1
  · rw [LocalApproximation, LocalApproximationSort, laSelectHeap, laSelectSort,
      if_neg h1, if_neg h1, if_neg h2, if_neg h2, if_neg h3, if_neg h3, if_pos h4, if_pos h4]
  · rw [LocalApproximation, LocalApproximationSort,
      laSelectHeap_ok_eq h1 (by omega) (by omega) (by omega),
      laSelectSort_ok_eq h1 (by omega) (by omega) (by omega),
      la_kept_eq_of_distinct (by omega) hd]

/-- C10 (amended): the bounded max-heap implementation and the
sort-all-candidates implementation of `LocalApproximation` return the same
error kind on every input and, whenever both succeed, the same minimum
distance; and on every input whose candidate squared distances are pairwise
distinct they return identical results.  (They can differ — only in the
prediction — when several candidates are tied at the kept boundary
distance; see the counterexample.) -/
theorem la_heap_sort_agreement (returns : List ℚ) (m n : ℕ) :
    (∀ e : LAError, LocalApproximation returns m n = .error e ↔
        LocalApproximationSort returns m n = .error e)
  ∧ (∀ ph mh ps ms, LocalApproximation returns m n = .ok (ph, mh) →
      LocalApproximationSort returns m n = .ok (ps, ms) → mh = ms)
  ∧ (((laCandidates returns m).map neighbor.dist2).Nodup →
      LocalApproximation returns m n = LocalApproximationSort returns m n) := by
  refine ⟨la_error_iff returns m n, ?_, la_eq_of_distinct returns m n⟩
  intro ph mh ps ms hh hs
  cases hselh : laSelectHeap returns m n with
  | error e =>
    rw [LocalApproximation, hselh] at hh
    exact absurd hh (by simp)
  | ok kh =>
    cases hsels : laSelectSort returns m n with
    | error e =>
      rw [LocalApproximationSort, hsels] at hs
      exact absurd hs (by simp)
    | ok ks =>
      rw [LocalApproximation, hselh] at hh
      rw [LocalApproximationSort, hsels] at hs
      have e1 : mh = Real.sqrt ((minDist2 kh : ℚ) : ℝ) :=
        (congrArg Prod.snd (Except.ok.inj hh)).symm
      have e2 : ms = Real.sqrt ((minDist2 ks : ℚ) : ℝ) :=
        (congrArg Prod.snd (Except.ok.inj hs)).symm
      rw [e1, e2, la_min_eq hselh hsels]
end RLP
